import Mathlib

/-!
Verification development for the NS4W CV-analysis backend
(`backend/app/services/analysis/strategies/*.py`).

The Python sources are shallowly embedded: Python strings are `List Char`,
Python dynamic JSON values are the inductive `JValue`, machine floats that
only ever hold parsed/clamped scores are modelled as `ℚ`, and code that can
raise an exception returns an `Option` (with `none` for the raised
exception).  External black boxes (the reasoning oracle, the embedding
oracle, the HTTP client, `json.loads`, numpy retrieval, the RNG and the
clock) are taken as explicit function parameters, mirroring the data each
call site actually feeds them.
-/

namespace NS4W

/-! ## Python strings -/

/-- Python strings are modelled as lists of characters. -/
abbrev Str := List Char

/-- Coercion helper from Lean string literals to the `Str` model. -/
def str (s : String) : Str := s.toList

/-- Python's substring test `needle in hay` (`str.__contains__`). -/
def isSub : Str → Str → Bool
  | nd, [] => nd.isEmpty
  | nd, h :: t => nd.isPrefixOf (h :: t) || isSub nd t

/-- Characters treated as whitespace by Python's `str.strip()` (ASCII part;
the claims never exercise non-ASCII whitespace). -/
def pySpace (c : Char) : Bool :=
  c = ' ' || c = '\t' || c = '\n' || c = '\r' || c = '\x0c' || c = '\x0b'

/-- Python's `str.strip()`: drop whitespace from both ends. -/
def pstrip (s : Str) : Str :=
  ((s.dropWhile pySpace).reverse.dropWhile pySpace).reverse

/-- Python's `str.lower()` (ASCII case folding suffices for the claims). -/
def lowerStr (s : Str) : Str := s.map Char.toLower

/-- Decimal digits of a natural number, as used when the agents format
`L{start}-L{end}` keys with an f-string. -/
def natRepr (n : ℕ) : Str := Nat.toDigits 10 n

/-- Decimal digits of an integer. -/
def intRepr (i : ℤ) : Str :=
  if i < 0 then '-' :: natRepr i.natAbs else natRepr i.natAbs

/-! ## Python dynamic (JSON) values

`json.loads` produces `None`, booleans, numbers, strings, lists and `dict`s.
Numbers are modelled as `ℚ`; the decimal formatting of floats is not needed
by any claim. -/

/-- Dynamic Python value as produced by `json.loads`. -/
inductive JValue where
  | jnull
  | jbool (b : Bool)
  | jnum (q : ℚ)
  | jstr (s : Str)
  | jarr (xs : List JValue)
  | jobj (fields : List (Str × JValue))

open JValue

/-- Python truthiness (`bool(x)`) of a dynamic value. -/
def pyTruthy : JValue → Bool
  | jnull => false
  | jbool b => b
  | jnum q => q ≠ 0
  | jstr s => ¬ s.isEmpty
  | jarr xs => ¬ xs.isEmpty
  | jobj fs => ¬ fs.isEmpty

/-- Rendering of a non-string value by Python's `str()`.  No claim depends
on the exact text produced for non-strings; integers are rendered exactly,
other shapes get a simple stable placeholder rendering. -/
def jrender : JValue → Str
  | jnull => str "None"
  | jbool b => if b then str "True" else str "False"
  | jnum q => if q.den = 1 then intRepr q.num else intRepr q.num ++ '/' :: natRepr q.den
  | jstr s => s
  | jarr _ => str "[...]"
  | jobj _ => str "*obj*"

/-- Python's `str(x)`: the identity on strings, a rendering otherwise. -/
def pyStr (v : JValue) : Str := jrender v

/-- Best-effort model of Python's `float(str)`: optional sign, digits with at
most one decimal point.  No claim feeds a string to `float`; this is only
here so `pyFloat` is total on strings. -/
def floatOfStr (s : Str) : Option ℚ :=
  let t := pstrip s
  let (sgn, u) : ℚ × Str :=
    match t with
    | '-' :: r => (-1, r)
    | '+' :: r => (1, r)
    | r => (1, r)
  let intPart := u.takeWhile Char.isDigit
  let rest := u.drop intPart.length
  let digitsVal : Str → ℕ := fun ds => ds.foldl (fun a c => a * 10 + c.toNat - '0'.toNat) 0
  match rest with
  | [] => if intPart.isEmpty then none else some (sgn * digitsVal intPart)
  | '.' :: fr =>
    if fr.all Char.isDigit ∧ ¬ (intPart.isEmpty ∧ fr.isEmpty) then
      some (sgn * ((digitsVal intPart : ℚ) + (digitsVal fr : ℚ) / ((10 : ℚ) ^ fr.length)))
    else none
  | _ => none

/-- Python's `float(x)` on a dynamic value; `none` models the raised
`TypeError`/`ValueError`. -/
def pyFloat : JValue → Option ℚ
  | jnum q => some q
  | jbool b => some (if b then 1 else 0)
  | jstr s => floatOfStr s
  | jnull => none
  | jarr _ => none
  | jobj _ => none

/-- Lookup in the association-list model of a Python `dict` (first match;
the JSON parser never produces duplicate keys). -/
def objLookup (fields : List (Str × JValue)) (k : Str) : Option JValue :=
  fields.lookup k

/-- Python's `d.get(k, default)` on a dynamic value; `none` models the
`AttributeError` raised when `d` is not a `dict`. -/
def pyGetD (v : JValue) (k : Str) (dflt : JValue) : Option JValue :=
  match v with
  | jobj fs => some ((objLookup fs k).getD dflt)
  | _ => none

/-- Python's `d.get(k)` (default `None`). -/
def pyGet (v : JValue) (k : Str) : Option JValue := pyGetD v k jnull

/-- Clamp `max(lo, min(hi, x))` used on every numeric oracle output. -/
def qclamp (lo hi x : ℚ) : ℚ := max lo (min hi x)

/-- Insert-or-replace on an association list, mirroring Python `dict`
assignment semantics: a repeated key keeps its original position but takes
the new value. -/
def upsert {α : Type} (m : List (Str × α)) (k : Str) (v : α) : List (Str × α) :=
  if (m.lookup k).isSome then
    m.map (fun p => if p.1 = k then (k, v) else p)
  else m ++ [(k, v)]

end NS4W

namespace NS4W

open JValue

/-! ## Defensive JSON parsing (`_safe_json_parse`, identical in all agents)

`json.loads` is an external library call, passed in as `jload` (with `none`
modelling a raised `JSONDecodeError`). -/

/-- Span matched by the greedy regex `\x7b.*\x7d` with DOTALL: from the first
opening brace to the last closing brace, when the first opening brace
precedes the last closing brace. -/
def braceSpan (s : Str) : Option Str :=
  match s.findIdx? (· = '{'), (s.reverse.findIdx? (· = '}')).map (fun k => s.length - 1 - k) with
  | some i, some j => if i < j then some ((s.drop i).take (j - i + 1)) else none
  | _, _ => none

/-- Model of `_safe_json_parse`: strict parse, then a permissive re-parse of
the brace-delimited span, then `None`. -/
def safeJsonParse (jload : Str → Option JValue) (s : Str) : Option JValue :=
  match jload s with
  | some v => some v
  | none =>
    match braceSpan s with
    | none => none
    | some sub => jload sub

/-- Model of the `_safe_json_parse(resp) or \x7b\x7d` idiom: a failed or falsy
parse result becomes the empty dict. -/
def jOrEmptyObj : Option JValue → JValue
  | none => jobj []
  | some v => if pyTruthy v then v else jobj []

/-- Python's `x or d` on dynamic values. -/
def orElseJ (v d : JValue) : JValue := if pyTruthy v then v else d

/-! ## Chunks, evidence and the verification gate -/

/-- A code chunk as stored in the run state
(`{"id","repo","file","start_line","end_line","text"}`). -/
structure Chunk where
  id : Str
  repo : Str
  file : Str
  start_line : ℕ
  end_line : ℕ
  text : Str
  deriving DecidableEq

/-- An oracle-cited evidence item (the `Evidence` TypedDict). -/
structure EvidenceItem where
  repo : Str
  file : Str
  lines : Str
  excerpt : Str
  reasoning : Str
  deriving DecidableEq

/-- The f-string tag `L{start}-L{end}` attached to every offered snippet. -/
def linesTag (s e : ℕ) : Str := 'L' :: natRepr s ++ '-' :: 'L' :: natRepr e

/-- The f-string lookup key `{repo}|{file}|{lines}`. -/
def mkKey (repo file lines : Str) : Str := repo ++ '|' :: file ++ '|' :: lines

/-- Key of the candidate snippet built for a chunk in `llm_assess_skill` and
`llm_judge_one_skill` (repo taken from the chunk itself). -/
def chunkKey (c : Chunk) : Str := mkKey c.repo c.file (linesTag c.start_line c.end_line)

/-- The `ctx_lookup` dict built while offering candidates to the oracle in
`llm_assess_skill` / `llm_judge_one_skill`: chunk key to full (untruncated)
chunk text. -/
def ctxLookupOf (contexts : List Chunk) : List (Str × Str) :=
  contexts.foldl (fun m c => upsert m (chunkKey c) c.text) []

/-- Key of a candidate snippet in `llm_judge_repo` (repo field forced to the
judged repository). -/
def chunkKeyAuth (repoFull : Str) (c : Chunk) : Str :=
  mkKey repoFull c.file (linesTag c.start_line c.end_line)

/-- The `ctx_lookup` dict built in `llm_judge_repo`. -/
def ctxLookupAuth (repoFull : Str) (contexts : List Chunk) : List (Str × Str) :=
  contexts.foldl (fun m c => upsert m (chunkKeyAuth repoFull c) c.text) []

/-- Per-item body of `verify_evidence` (skill-inflation and
project-authenticity agents): strip the four cited fields, require them
non-empty, require the key to hit an offered candidate with truthy text,
require the excerpt to be a substring, then truncate excerpt/reasoning. -/
def verifyOne (ctxLookup : List (Str × Str)) (it : EvidenceItem) : Option EvidenceItem :=
  let repo := pstrip it.repo
  let file := pstrip it.file
  let lines := pstrip it.lines
  let excerpt := pstrip it.excerpt
  if repo.isEmpty || file.isEmpty || lines.isEmpty || excerpt.isEmpty then none
  else
    match ctxLookup.lookup (mkKey repo file lines) with
    | none => none
    | some txt =>
      if txt.isEmpty then none
      else if isSub excerpt txt then
        some { it with excerpt := excerpt.take 220, reasoning := it.reasoning.take 260 }
      else none

/-- Model of `verify_evidence` (skill-inflation and project-authenticity). -/
def verify_evidence (items : List EvidenceItem) (ctxLookup : List (Str × Str)) :
    List EvidenceItem :=
  items.filterMap (verifyOne ctxLookup)

/-- Per-item body of `verify_evidence_items` (skill-mapping agent).  The
stored candidate is the dict `{"text": txt}`, which is always truthy, so
unlike `verifyOne` an empty candidate text is not rejected up front. -/
def verifyOneItems (ctxLookup : List (Str × Str)) (it : EvidenceItem) : Option EvidenceItem :=
  let repo := pstrip it.repo
  let file := pstrip it.file
  let lines := pstrip it.lines
  let excerpt := pstrip it.excerpt
  if repo.isEmpty || file.isEmpty || lines.isEmpty || excerpt.isEmpty then none
  else
    match ctxLookup.lookup (mkKey repo file lines) with
    | none => none
    | some txt =>
      if isSub excerpt txt then
        some { it with excerpt := excerpt.take 220, reasoning := it.reasoning.take 260 }
      else none

/-- Model of `verify_evidence_items` (skill-mapping agent). -/
def verify_evidence_items (items : List EvidenceItem) (ctxLookup : List (Str × Str)) :
    List EvidenceItem :=
  items.filterMap (verifyOneItems ctxLookup)

/-- Parsing of the oracle's raw evidence list (first `takeN` dict entries,
each field passed through `str(x.get(...))`; the skill agents default the
repo field to the empty string, `llm_judge_repo` defaults it to the judged
repository). -/
def parseEvList (v : JValue) (takeN : ℕ) (repoDflt : Str) : List EvidenceItem :=
  match v with
  | jarr xs =>
    (xs.take takeN).filterMap (fun x =>
      match x with
      | jobj fs => some {
          repo := pyStr ((objLookup fs (str "repo")).getD (jstr repoDflt)),
          file := pyStr ((objLookup fs (str "file")).getD (jstr (str ""))),
          lines := pyStr ((objLookup fs (str "lines")).getD (jstr (str ""))),
          excerpt := pyStr ((objLookup fs (str "excerpt")).getD (jstr (str ""))),
          reasoning := pyStr ((objLookup fs (str "reasoning")).getD (jstr (str ""))) }
      | _ => none)
  | _ => []

end NS4W

namespace NS4W

open JValue

/-! ## Skill-inflation judge (`llm_assess_skill`) -/

/-- A skill claim extracted from the CV (the `SkillClaim` TypedDict; the
model keeps every field present, with `claimed_level` defaulting to
`"unknown"` at construction sites exactly as the extractor guarantees). -/
structure SkillClaim where
  skill : Str
  claim_text : Str
  claimed_level : Str
  source : Str
  deriving DecidableEq

/-- The skill-inflation decision (`SkillDecision` TypedDict). -/
structure SkillDecision where
  claimed_level : Str
  observed_level : Str
  overclaim : Bool
  severity : ℚ
  confidence : ℚ
  evidence : List EvidenceItem
  notes : Str
  deriving DecidableEq

/-- The proficiency rank dicts
`beginner:1, intermediate:2, expert:3` with every other level (including
`unknown` and `unclear`) defaulting to `0`. -/
def rankLevel (s : Str) : ℕ :=
  if s = str "beginner" then 1
  else if s = str "intermediate" then 2
  else if s = str "expert" then 3
  else 0

/-- The severity mapping at the end of `llm_assess_skill`: `0.6` for a
one-level gap, `1.0` for a larger gap, `0.6` when an overclaim is flagged
against an unranked observation, else `0`. -/
def severityOf (claimedR observedR : ℕ) (overclaim : Bool) : ℚ :=
  if 0 < claimedR ∧ 0 < observedR ∧ observedR < claimedR then
    (if claimedR - observedR = 1 then (0.6 : ℚ) else 1)
  else if overclaim ∧ 0 < claimedR ∧ observedR = 0 then (0.6 : ℚ)
  else 0

/-- Post-parse finalization of `llm_assess_skill` (source lines 532-583):
field extraction with defaults, clamping, evidence parsing, the
verification gate, the no-evidence overclaim downgrade and the severity
mapping.  `none` models an uncaught exception (e.g. `float(None)`). -/
def llmAssessFinalize (claim : SkillClaim) (contexts : List Chunk) (data : JValue) :
    Option SkillDecision := do
  let claimed_level := claim.claimed_level
  let ctxLookup := ctxLookupOf contexts
  let obsV ← pyGetD data (str "observed_level") (jstr (str "unclear"))
  let observed0 := pstrip (lowerStr (pyStr obsV))
  let observed :=
    if observed0 = str "beginner" ∨ observed0 = str "intermediate" ∨
        observed0 = str "expert" ∨ observed0 = str "unclear" then observed0
    else str "unclear"
  let confV ← pyGetD data (str "confidence") (jnum 0)
  let confF ← pyFloat confV
  let conf0 := qclamp 0 1 confF
  let ocV ← pyGetD data (str "overclaim") (jbool false)
  let overclaim0 := pyTruthy ocV
  let notesV ← pyGetD data (str "notes") (jstr (str ""))
  let notes0 := (pyStr notesV).take 240
  let evV ← pyGet data (str "evidence")
  let evItems := parseEvList (orElseJ evV (jarr [])) 4 (str "")
  let verified := verify_evidence evItems ctxLookup
  let res :=
    if overclaim0 ∧ verified.isEmpty then
      (false, (0 : ℚ), (notes0 ++ str " (downgraded: no verifiable evidence)").take 240)
    else (overclaim0, conf0, notes0)
  let claimedR := rankLevel claimed_level
  let observedR := rankLevel observed
  let severity := severityOf claimedR observedR res.1
  some {
    claimed_level := claimed_level,
    observed_level := observed,
    overclaim := res.1,
    severity := qclamp 0 1 severity,
    confidence := res.2.1,
    evidence := verified,
    notes := res.2.2 }

/-- `llm_assess_skill` as a function of the oracle's raw response text. -/
def llmAssessSkill (jload : Str → Option JValue) (claim : SkillClaim)
    (contexts : List Chunk) (resp : Str) : Option SkillDecision :=
  llmAssessFinalize claim contexts (jOrEmptyObj (safeJsonParse jload resp))

/-! ## Skill-mapping judge (`llm_judge_one_skill`) -/

/-- The skill-mapping decision (`SkillDecision` TypedDict of the mapping
agent). -/
structure MapDecision where
  status : Str
  fake : Bool
  confidence : ℚ
  evidence : List EvidenceItem
  deriving DecidableEq

/-- Post-parse finalization of `llm_judge_one_skill` (source lines 467-497). -/
def llmJudgeOneSkillFinalize (contexts : List Chunk) (data : JValue) :
    Option MapDecision := do
  let ctxLookup := ctxLookupOf contexts
  let stV ← pyGetD data (str "status") (jstr (str "unsupported"))
  let status := lowerStr (pyStr stV)
  let supported := status = str "supported"
  let confV ← pyGetD data (str "confidence") (jnum 0)
  let confF ← pyFloat confV
  let conf := qclamp 0 1 confF
  let evV ← pyGet data (str "evidence")
  let evItems := parseEvList (orElseJ evV (jarr [])) 3 (str "")
  let verified := verify_evidence_items evItems ctxLookup
  if supported ∧ verified.isEmpty then
    some { status := str "unsupported", fake := true, confidence := 0, evidence := [] }
  else
    some {
      status := if supported ∧ ¬ verified.isEmpty then str "supported" else str "unsupported",
      fake := ¬ (supported ∧ ¬ verified.isEmpty),
      confidence := if supported ∧ ¬ verified.isEmpty then conf else 0,
      evidence := verified }

/-- `llm_judge_one_skill` as a function of the oracle's raw response text. -/
def llmJudgeOneSkill (jload : Str → Option JValue) (contexts : List Chunk)
    (resp : Str) : Option MapDecision :=
  llmJudgeOneSkillFinalize contexts (jOrEmptyObj (safeJsonParse jload resp))

/-! ## Project-authenticity judge (`llm_judge_repo`) -/

/-- The authenticity decision (`RepoAuthenticity` TypedDict). -/
structure RepoAuthenticity where
  scan_mode : Str
  authenticity_score : ℚ
  labels : List Str
  confidence : ℚ
  signals : JValue
  evidence : List EvidenceItem
  notes : Str

/-- The three labels that assert inauthenticity in `llm_judge_repo`. -/
def badLabels : List Str := [str "tutorial_clone", str "copy_paste", str "ai_generated"]

/-- Post-parse finalization of `llm_judge_repo` (source lines 650-692). -/
def llmJudgeRepoFinalize (repoFull : Str) (signals : JValue) (contexts : List Chunk)
    (data : JValue) : Option RepoAuthenticity := do
  let ctxLookup := ctxLookupAuth repoFull contexts
  let scV ← pyGetD data (str "authenticity_score") (jnum 50)
  let scF ← pyFloat scV
  let score := qclamp 0 100 scF
  let lbV ← pyGet data (str "labels")
  let labels0 :=
    match orElseJ lbV (jarr [jstr (str "unclear")]) with
    | jarr xs => (xs.map pyStr).take 6
    | _ => [str "unclear"]
  let confV ← pyGetD data (str "confidence") (jnum 0.5)
  let confF ← pyFloat confV
  let conf0 := qclamp 0 1 confF
  let evV ← pyGet data (str "evidence")
  let evItems := parseEvList (orElseJ evV (jarr [])) 4 repoFull
  let verified := verify_evidence evItems ctxLookup
  let res :=
    if (labels0.any (fun l => badLabels.contains l)) ∧ verified.isEmpty then
      ([str "unclear"], (0 : ℚ))
    else (labels0, conf0)
  let ntV ← pyGetD data (str "notes") (jstr (str ""))
  let notes := (pyStr ntV).take 240
  some {
    scan_mode := str "deep",
    authenticity_score := score,
    labels := res.1,
    confidence := res.2,
    signals := signals,
    evidence := verified,
    notes := notes }

/-- `llm_judge_repo` as a function of the oracle's raw response text. -/
def llmJudgeRepo (jload : Str → Option JValue) (repoFull : Str) (signals : JValue)
    (contexts : List Chunk) (resp : Str) : Option RepoAuthenticity :=
  llmJudgeRepoFinalize repoFull signals contexts (jOrEmptyObj (safeJsonParse jload resp))

end NS4W

namespace NS4W

open JValue

/-! ## Archive chunker

The `zipfile` library is external: an already-parsed archive is a list of
entries, and `none` stands for bytes that `zipfile.ZipFile` rejects.  Entry
contents are carried post-`decode("utf-8", errors="ignore")`; the byte
length used by the size checks is the content length (equal to the zip
header's `file_size` for the archives GitHub serves). -/

/-- One member of a parsed zip archive. -/
structure ZipEntry where
  filename : Str
  isDir : Bool
  raw : Str
  deriving DecidableEq

/-- The resource constants of one agent
(`MAX_FILES_PER_REPO`, `MAX_FILE_BYTES`, `MAX_ZIP_BYTES_PER_REPO`,
`MAX_TOTAL_CHUNKS`, `CHUNK_MAX_LINES`, `CHUNK_OVERLAP`). -/
structure ChunkConfig where
  maxFilesPerRepo : ℕ
  maxFileBytes : ℕ
  maxZipBytes : ℕ
  maxTotalChunks : ℕ
  chunkMaxLines : ℕ
  chunkOverlap : ℕ
  deriving DecidableEq

/-- Constants of the skill-inflation agent. -/
def inflationConfig : ChunkConfig :=
  { maxFilesPerRepo := 140, maxFileBytes := 900000, maxZipBytes := 6000000,
    maxTotalChunks := 7000, chunkMaxLines := 140, chunkOverlap := 25 }

/-- Constants of the skill-mapping agent. -/
def mappingConfig : ChunkConfig :=
  { maxFilesPerRepo := 120, maxFileBytes := 900000, maxZipBytes := 6000000,
    maxTotalChunks := 5000, chunkMaxLines := 120, chunkOverlap := 20 }

/-- Constants of the project-authenticity agent. -/
def authenticityConfig : ChunkConfig :=
  { maxFilesPerRepo := 140, maxFileBytes := 900000, maxZipBytes := 6000000,
    maxTotalChunks := 6500, chunkMaxLines := 140, chunkOverlap := 25 }

/-- The `SKIP_DIRS` tuple shared by the agents. -/
def SKIP_DIRS : List Str :=
  [str "/.git/", str "/node_modules/", str "/.venv/", str "/venv/",
   str "/dist/", str "/build/", str "/__pycache__/"]

/-- The `ALLOWED_EXTS` set shared by the agents. -/
def ALLOWED_EXTS : List Str :=
  [str ".py", str ".ipynb", str ".js", str ".ts", str ".tsx", str ".jsx",
   str ".java", str ".cpp", str ".c", str ".h", str ".hpp",
   str ".go", str ".rs", str ".cs", str ".sql",
   str ".md", str ".toml", str ".yml", str ".yaml", str ".json"]

/-- Backslash-to-slash normalization (`path.replace("\\", "/")`). -/
def normSlash (p : Str) : Str := p.map (fun c => if c = '\\' then '/' else c)

/-- Extension part of `os.path.splitext` (POSIX): the suffix from the last
dot of the basename, where the basename's leading dots never start an
extension. -/
def extOf (p : Str) : Str :=
  let base := (p.reverse.takeWhile (fun c => c ≠ '/')).reverse
  let rest := base.drop ((base.takeWhile (fun c => c = '.')).length)
  if rest.contains '.' then '.' :: (rest.reverse.takeWhile (fun c => c ≠ '.')).reverse
  else []

/-- Model of `should_keep`: reject any path containing a skip-directory
fragment as a substring, then require an allow-listed extension. -/
def should_keep (path : Str) : Bool :=
  let p := normSlash path
  if SKIP_DIRS.any (fun d => isSub d p) then false
  else ALLOWED_EXTS.contains (lowerStr (extOf p))

/-- The wrapper-stripping step `"/".join(info.filename.split("/")[1:])`. -/
def stripTop (p : Str) : Str := List.intercalate (str "/") ((p.splitOn '/').drop 1)

/-! ### Notebook preprocessing (`extract_text_from_ipynb`) -/

/-- Python's `"".join(src)` over a dynamic list; `none` models the
`TypeError` raised on a non-string element (caught by the enclosing
`except`, which then returns the raw text). -/
def joinStrParts (xs : List JValue) : Option Str :=
  xs.foldlM (fun acc v => match v with | jstr s => some (acc ++ s) | _ => none) []

/-- Per-cell source collection of `extract_text_from_ipynb`; `none` models
any exception inside the loop. -/
def ipynbParts (cells : List JValue) : Option (List Str) :=
  cells.foldlM
    (fun acc c =>
      match c with
      | jobj fs =>
        match (objLookup fs (str "source")).getD (jarr []) with
        | jarr srcs => (joinStrParts srcs).map (fun j => acc ++ [j])
        | jstr s => some (acc ++ [s])
        | _ => some acc
      | _ => none)
    []

/-- Model of `extract_text_from_ipynb`: concatenate the cell sources with
blank lines; every failure path returns the raw text unchanged. -/
def extract_text_from_ipynb (jload : Str → Option JValue) (raw : Str) : Str :=
  match jload raw with
  | none => raw
  | some j =>
    match j with
    | jobj fs =>
      match (objLookup fs (str "cells")).getD (jarr []) with
      | jarr cells =>
        match ipynbParts cells with
        | some parts => List.intercalate (str "\n\n") parts
        | none => raw
      | _ => raw
    | _ => raw

/-! ### Line windowing (`chunk_text_lines`) -/

/-- Line-boundary characters of Python's `str.splitlines`. -/
def isBrkChar (c : Char) : Bool :=
  c = '\n' || c = '\r' || c = '\x0b' || c = '\x0c' ||
  c = '\x1c' || c = '\x1d' || c = '\x1e' || c = '\x85' ||
  c = ' ' || c = ' '

/-- Accumulator loop of Python's `str.splitlines` (`\r\n` counts as one
boundary; a trailing boundary does not open a final empty line). -/
def splitlinesAux : Str → Str → List Str
  | [], acc => if acc.isEmpty then [] else [acc.reverse]
  | [c], acc => if isBrkChar c then [acc.reverse] else [(c :: acc).reverse]
  | c :: c2 :: t, acc =>
    if isBrkChar c then
      if c = '\r' ∧ c2 = '\n' then acc.reverse :: splitlinesAux t []
      else acc.reverse :: splitlinesAux (c2 :: t) []
    else splitlinesAux (c2 :: t) (c :: acc)

/-- Python's `text.splitlines()`. -/
def splitlines (s : Str) : List Str := splitlinesAux s []

/-- The `"\n".join(...)` reassembly of a window. -/
def joinNL : List Str → Str
  | [] => []
  | [x] => x
  | x :: y :: t => x ++ '\n' :: joinNL (y :: t)

/-- Window loop of `chunk_text_lines`, with an explicit fuel argument equal
to the number of lines.  Whenever `overlap < maxLines` (the configured
regime: 25 < 140 and 20 < 120) the loop advances by at least one line per
iteration, so this fuel never runs out; with `overlap ≥ maxLines` the
Python loop would not terminate at all. -/
def chunkAux (lines : List Str) (maxL ov : ℕ) : ℕ → ℕ → List (ℕ × ℕ × Str)
  | 0, _ => []
  | fuel + 1, i =>
    if i < lines.length then
      let j := min lines.length (i + maxL)
      let piece := (i + 1, j, joinNL ((lines.drop i).take maxL))
      if j = lines.length then [piece]
      else piece :: chunkAux lines maxL ov fuel (j - ov)
    else []

/-- Model of `chunk_text_lines`: 1-based `(start_line, end_line, text)`
windows. -/
def chunk_text_lines (text : Str) (maxL ov : ℕ) : List (ℕ × ℕ × Str) :=
  chunkAux (splitlines text) maxL ov (splitlines text).length 0

/-! ### Archive traversal (`build_chunks_from_zip`) -/

/-- The window loop body of `build_chunks_from_zip`: drop whitespace-only
windows, mint chunk ids, and stop the whole call once the accumulated list
reaches `MAX_TOTAL_CHUNKS` (the `Bool` reports that early return). -/
def addWindows (cfg : ChunkConfig) (repoFull path : Str) :
    List (ℕ × ℕ × Str) → ℕ → List Chunk → List Chunk × ℕ × Bool
  | [], lid, acc => (acc, lid, false)
  | w :: ws, lid, acc =>
    if (pstrip w.2.2).isEmpty then addWindows cfg repoFull path ws lid acc
    else
      let ch : Chunk := {
        id := repoFull ++ ':' :: path ++ ':' :: natRepr w.1 ++ '-' :: natRepr w.2.1 ++
          ':' :: natRepr lid,
        repo := repoFull, file := path,
        start_line := w.1, end_line := w.2.1, text := w.2.2 }
      let acc' := acc ++ [ch]
      if cfg.maxTotalChunks ≤ acc'.length then (acc', lid + 1, true)
      else addWindows cfg repoFull path ws (lid + 1) acc'

/-- The entry loop of `build_chunks_from_zip`: directory skip, file-count
break, single-file size skip, wrapper stripping, path filter, byte-budget
break, notebook preprocessing, windowing. -/
def buildLoop (cfg : ChunkConfig) (jload : Str → Option JValue) (repoFull : Str) :
    List ZipEntry → ℕ → ℕ → ℕ → List Chunk → List Chunk
  | [], _, _, _, acc => acc
  | e :: rest, totalBytes, filesSeen, lid, acc =>
    if e.isDir then buildLoop cfg jload repoFull rest totalBytes filesSeen lid acc
    else if cfg.maxFilesPerRepo ≤ filesSeen then acc
    else if cfg.maxFileBytes < e.raw.length then
      buildLoop cfg jload repoFull rest totalBytes filesSeen lid acc
    else
      let path := stripTop e.filename
      if path.isEmpty ∨ ¬ should_keep path then
        buildLoop cfg jload repoFull rest totalBytes filesSeen lid acc
      else
        let tb := totalBytes + e.raw.length
        if cfg.maxZipBytes < tb then acc
        else
          let text :=
            if (str ".ipynb").isSuffixOf (lowerStr path) then
              extract_text_from_ipynb jload e.raw
            else e.raw
          let res := addWindows cfg repoFull path
            (chunk_text_lines text cfg.chunkMaxLines cfg.chunkOverlap) lid acc
          if res.2.2 then res.1
          else buildLoop cfg jload repoFull rest tb (filesSeen + 1) res.2.1 res.1

/-- Model of `build_chunks_from_zip`.  The second component is the
`zip_parse_failures` increment recorded in the run metadata. -/
def build_chunks_from_zip (cfg : ChunkConfig) (jload : Str → Option JValue)
    (z : Option (List ZipEntry)) (repoFull : Str) : List Chunk × ℕ :=
  match z with
  | none => ([], 1)
  | some entries => (buildLoop cfg jload repoFull entries 0 0 0 [], 0)

/-! ### Run-wide accumulation (`n_deep_index`) -/

/-- Discovered repository metadata, with the fields the pipeline reads
(absent JSON fields arrive as the Python-falsy defaults). -/
structure RepoMeta where
  full_name : Str
  pushed_at : Str
  fork : Bool
  size : ℕ
  stargazers_count : ℕ
  default_branch : Str
  deriving DecidableEq

/-- The repository loop of `n_deep_index`.  `fetch` abstracts
`cache_get`-or-`download_zipball` with its retry loop: `none` is total
retrieval failure (counted in `zip_failures`), `some none` is bytes that
fail to parse as a zip, `some (some entries)` is a parsed archive.  Returns
(accumulated chunks, repo slices, zip failures, zip parse failures). -/
def deepIndexLoop (cfg : ChunkConfig) (jload : Str → Option JValue)
    (fetch : Str → Str → Option (Option (List ZipEntry))) :
    List RepoMeta → List Chunk → List (Str × ℕ × ℕ) → ℕ → ℕ →
    List Chunk × List (Str × ℕ × ℕ) × ℕ × ℕ
  | [], acc, slices, zf, pf => (acc, slices, zf, pf)
  | r :: rest, acc, slices, zf, pf =>
    if r.full_name.isEmpty then deepIndexLoop cfg jload fetch rest acc slices zf pf
    else
      let branch := if r.default_branch.isEmpty then str "main" else r.default_branch
      match fetch r.full_name branch with
      | none => deepIndexLoop cfg jload fetch rest acc slices (zf + 1) pf
      | some zd =>
        let bc := build_chunks_from_zip cfg jload zd r.full_name
        let acc' := acc ++ bc.1
        let slices' := slices ++ [(r.full_name, acc.length, acc'.length)]
        if cfg.maxTotalChunks ≤ acc'.length then (acc', slices', zf, pf + bc.2)
        else deepIndexLoop cfg jload fetch rest acc' slices' zf (pf + bc.2)

end NS4W

namespace NS4W

open JValue

/-! ## CV helpers of the skill-inflation agent -/

mutual

/-- Body of the inner `rec` of `find_all_strings`: depth-first, left-to-right
collection of string leaves, stopping once `limit` strings are collected. -/
def faVal (limit : ℕ) : JValue → List Str → List Str
  | x, out =>
    if limit ≤ out.length then out
    else
      match x with
      | jstr s => out ++ [s]
      | jobj fs => faObj limit fs out
      | jarr xs => faArr limit xs out
      | _ => out

/-- Iteration of `rec` over `dict.values()`. -/
def faObj (limit : ℕ) : List (Str × JValue) → List Str → List Str
  | [], out => out
  | (_, v) :: t, out => faObj limit t (faVal limit v out)

/-- Iteration of `rec` over a list. -/
def faArr (limit : ℕ) : List JValue → List Str → List Str
  | [], out => out
  | v :: t, out => faArr limit t (faVal limit v out)

end

/-- Model of `find_all_strings` (skill-inflation agent, limit 30000). -/
def find_all_strings (obj : JValue) (limit : ℕ := 30000) : List Str :=
  faVal limit obj []

/-- Attempted match of the regex `github\.com/([^/\s\)\]]+)` (IGNORECASE) at
the head of a string: the literal host part case-insensitively, then a
non-empty capture of characters outside the excluded class. -/
def ghUserAt (s : Str) : Option Str :=
  if lowerStr (s.take 11) = str "github.com/" then
    let cap := (s.drop 11).takeWhile (fun c => ¬ (c = '/' || pySpace c || c = ')' || c = ']'))
    if cap.isEmpty then none else some cap
  else none

/-- Left-to-right scan of `re.search` for the pattern above. -/
def ghScan : Str → Option Str
  | [] => none
  | c :: t =>
    match ghUserAt (c :: t) with
    | some u => some u
    | none => ghScan t

/-- Model of `extract_github_username` (skill-inflation agent): the first
string leaf that contains `github` case-insensitively and yields a regex
match; a leaf that mentions `github` without a matching URL is skipped, not
fatal. -/
def extract_github_username (cv : JValue) : Option Str :=
  (find_all_strings cv).findSome? (fun s =>
    if isSub (str "github") (lowerStr s) then ghScan s else none)

/-! ## Claim extraction (`llm_extract_skill_claims`) -/

/-- Post-parse logic of `llm_extract_skill_claims`: field cleanup and
validation of up to 200 oracle-proposed claims, then per-skill
deduplication keeping the strongest claimed level (first-insertion order,
as a Python dict).  `none` models the `AttributeError` raised when the
parsed payload is a truthy non-dict. -/
def llmExtractSkillClaims (jload : Str → Option JValue) (resp : Str) :
    Option (List SkillClaim) := do
  let data := jOrEmptyObj (safeJsonParse jload resp)
  let clV ← pyGet data (str "claims")
  let out : List SkillClaim :=
    match orElseJ clV (jarr []) with
    | jarr xs =>
      (xs.take 200).filterMap (fun c =>
        match c with
        | jobj fs =>
          let skill := pstrip (pyStr ((objLookup fs (str "skill")).getD (jstr (str ""))))
          if skill.isEmpty then none
          else
            let cl0 := lowerStr (pstrip (pyStr
              ((objLookup fs (str "claimed_level")).getD (jstr (str "unknown")))))
            let cl :=
              if cl0 = str "beginner" ∨ cl0 = str "intermediate" ∨
                  cl0 = str "expert" ∨ cl0 = str "unknown" then cl0
              else str "unknown"
            let src0 := (pstrip (pyStr
              ((objLookup fs (str "source")).getD (jstr (str "other"))))).take 30
            some {
              skill := skill,
              claim_text := pstrip (pyStr
                ((objLookup fs (str "claim_text")).getD (jstr (str "")))),
              claimed_level := cl,
              source := if src0.isEmpty then str "other" else src0 }
        | _ => none)
    | _ => []
  let best := out.foldl
    (fun m c =>
      let k := lowerStr (pstrip c.skill)
      match m.lookup k with
      | none => m ++ [(k, c)]
      | some prev =>
        if rankLevel prev.claimed_level < rankLevel c.claimed_level then upsert m k c
        else m)
    []
  some (best.map Prod.snd)

/-! ## Repository selection -/

/-- Lexicographic string comparison, as Python compares the `pushed_at`
ISO-8601 timestamps. -/
def strLE : Str → Str → Bool
  | [], _ => true
  | _ :: _, [] => false
  | a :: ta, b :: tb =>
    if a.toNat < b.toNat then true
    else if b.toNat < a.toNat then false
    else strLE ta tb

/-- Stable descending sort by `pushed_at`
(`sorted(key=lambda x: x.get("pushed_at") or "", reverse=True)`). -/
def sortByPushedDesc (repos : List RepoMeta) : List RepoMeta :=
  repos.mergeSort (fun a b => strLE b.pushed_at a.pushed_at)

/-- The heuristic score of `choose_deep_repos` (skill-inflation agent):
non-fork bonus, capped size and star terms. -/
def repoScore (r : RepoMeta) : ℚ :=
  (if ¬ r.fork then 30 else 0) + min 60 ((r.size : ℚ) / 200) +
    min 10 ((r.stargazers_count : ℚ) / 5)

/-- Model of `choose_deep_repos`: stable descending sort by score, truncated
to `k`. -/
def choose_deep_repos (repos : List RepoMeta) (k : ℕ) : List RepoMeta :=
  (repos.mergeSort (fun a b => decide (repoScore b ≤ repoScore a))).take k

end NS4W

namespace NS4W

open JValue

/-! ## Skill-inflation pipeline (LangGraph node functions)

The run-scoped mutable `GraphState` dict becomes an explicit record; a
metadata key that a stage has not yet written is `none`. -/

/-- The `meta` dict of the skill-inflation run. -/
structure RunMeta where
  loaded_at : Option ℚ := none
  github_user_found : Option Bool := none
  claims_count : Option ℕ := none
  notes : Option Str := none
  pages_fetched : Option ℕ := none
  rate_limited : Option Bool := none
  repos_total_seen : Option ℕ := none
  repos_deep_selected : Option ℕ := none
  chunks : Option ℕ := none
  zip_failures : Option ℕ := none
  zip_parse_failures : Option ℕ := none
  embedding_dim : Option ℕ := none
  skills_judged : Option ℕ := none
  assembled_at : Option ℚ := none

/-- Pagination metadata returned by `list_repos_all`. -/
structure PageMeta where
  pages_fetched : ℕ
  rate_limited : Bool

/-- Round-half-to-even at two decimals, the exact-arithmetic counterpart of
Python's `round(x, 2)` (whose float behaviour differs only by binary
representation error, which no claim depends on). -/
def roundHalfEven (q : ℚ) : ℤ :=
  let f := ⌊q⌋
  let r := q - f
  if r < 1/2 then f
  else if (1/2 : ℚ) < r then f + 1
  else if f % 2 = 0 then f else f + 1

/-- Python's `round(x, 2)` on the model rationals. -/
def pyRound2 (q : ℚ) : ℚ := (roundHalfEven (q * 100) : ℚ) / 100

/-- The assembled `final_output` mapping of the skill-inflation agent. -/
structure InflOutput where
  github_user : Option Str
  overall_skill_inflation_score : ℚ
  overclaim_count : ℕ
  skills : List (Str × SkillDecision)
  meta : RunMeta

/-- The `GraphState` record of the skill-inflation agent. -/
structure InflState where
  cv_json : JValue
  github_user : Option Str := none
  repos_all : List RepoMeta := []
  repos_deep : List RepoMeta := []
  chunks : List Chunk := []
  chunk_vectors : Option (List (List ℚ)) := none
  repo_slices : List (Str × ℕ × ℕ) := []
  claims : List SkillClaim := []
  decisions_by_skill : List (Str × SkillDecision) := []
  meta : RunMeta := {}
  final_output : Option InflOutput := none

/-- Stage `n_load`: stamp the load time (`time.time()` passed in as `t`). -/
def n_load (t : ℚ) (st : InflState) : InflState :=
  { st with meta := { st.meta with loaded_at := some t } }

/-- Stage `n_extract`: resolve the username when still falsy, then extract
claims from the reasoning oracle's response `extractResp`. -/
def n_extract (jload : Str → Option JValue) (extractResp : Str) (st : InflState) :
    Option InflState := do
  let gh :=
    match st.github_user with
    | some u => if u.isEmpty then extract_github_username st.cv_json else some u
    | none => extract_github_username st.cv_json
  let claims ← llmExtractSkillClaims jload extractResp
  some { st with
    github_user := gh,
    claims := claims,
    meta := { st.meta with
      github_user_found := some (match gh with | some u => ¬ u.isEmpty | none => false),
      claims_count := some claims.length } }

/-- Stage `n_collect_repos`.  `listRepos` abstracts
`GitHubPublic.list_repos_all` (already sorted by push date and truncated to
`MAX_REPOS_TOTAL` by that helper); `none` models the `RuntimeError` it
raises after exhausting its retries. -/
def n_collect_repos (listRepos : Str → Option (List RepoMeta × PageMeta))
    (st : InflState) : Option InflState :=
  let userRaw := st.github_user.getD (str "")
  if userRaw.isEmpty then
    some { st with
      repos_all := [], repos_deep := [], chunks := [], chunk_vectors := none,
      repo_slices := [],
      meta := { st.meta with
        notes := some (str "No GitHub username found; cannot verify skill usage.") } }
  else do
    let lr ← listRepos userRaw
    let merged := lr.1.foldl
      (fun m r => if r.full_name.isEmpty then m else upsert m r.full_name r) []
    let repos_all := sortByPushedDesc (merged.map Prod.snd)
    let repos_deep := choose_deep_repos repos_all (min 18 repos_all.length)
    some { st with
      repos_all := repos_all,
      repos_deep := repos_deep,
      meta := { st.meta with
        pages_fetched := some lr.2.pages_fetched,
        rate_limited := some lr.2.rate_limited,
        repos_total_seen := some repos_all.length,
        repos_deep_selected := some repos_deep.length } }

/-- Stage `n_deep_index`: download-or-cache every deep repository, chunk it,
and embed the chunk texts (truncated to 2500 characters) through the
embedding oracle `embedO`. -/
def n_deep_index (jload : Str → Option JValue)
    (fetch : Str → Str → Option (Option (List ZipEntry)))
    (embedO : List Str → List (List ℚ)) (st : InflState) : InflState :=
  if st.repos_deep.isEmpty then
    { st with chunks := [], chunk_vectors := none, repo_slices := [] }
  else
    let res := deepIndexLoop inflationConfig jload fetch st.repos_deep [] [] 0 0
    let allChunks := res.1
    let meta1 := { st.meta with
      chunks := some allChunks.length, zip_failures := some res.2.2.1 }
    let meta2 :=
      if res.2.2.2 = 0 then meta1
      else { meta1 with
        zip_parse_failures := some (meta1.zip_parse_failures.getD 0 + res.2.2.2) }
    if allChunks.isEmpty then
      { st with
        chunks := allChunks
        repo_slices := res.2.1
        chunk_vectors := none
        meta := meta2 }
    else
      let vecs := embedO (allChunks.map (fun c => c.text.take 2500))
      { st with
        chunks := allChunks
        repo_slices := res.2.1
        chunk_vectors := some vecs
        meta := { meta2 with embedding_dim := some (vecs.headD []).length } }

/-- The conservative decision written for every claim when no code was
indexed. -/
def zeroDecision (c : SkillClaim) : SkillDecision :=
  { claimed_level := c.claimed_level, observed_level := str "unclear",
    overclaim := false, severity := 0, confidence := 0, evidence := [],
    notes := str "No code indexed; cannot compare against GitHub usage." }

/-- The broad retrieval query built for one skill in `n_judge_skills`. -/
def skillQuery (skill : Str) : Str :=
  str "Evidence of real usage of skill " ++ '\'' ::
    (skill ++ '\'' :: str ": configs, imports, APIs, deployment, infra, modules, tests, scripts, pipelines, nontrivial implementation details. Not just mention.")

/-- Stage `n_judge_skills`.  `qembed` is the query-embedding oracle, `topk`
the numpy retrieval (kept abstract with its float arithmetic), `randPool`
the output of `random.sample`, and `judgeO` the reasoning oracle's response
as a function of the data it is shown. -/
def n_judge_skills (jload : Str → Option JValue)
    (judgeO : SkillClaim → List Chunk → Str) (qembed : Str → List ℚ)
    (topk : List (List ℚ) → List ℚ → ℕ → List ℕ) (randPool : List ℕ)
    (st : InflState) : Option InflState :=
  let claims := st.claims
  let chunks := st.chunks
  let noCode : Bool :=
    match st.chunk_vectors with
    | none => true
    | some _ => chunks.isEmpty
  if noCode then
    let decisions := claims.foldl (fun m c => upsert m c.skill (zeroDecision c)) []
    some { st with
      decisions_by_skill := decisions,
      meta := { st.meta with
        notes := some ((st.meta.notes.getD (str "")) ++
          str " Deep index missing; decisions set to unclear.") } }
  else do
    let vecs := st.chunk_vectors.getD []
    let decisions ← claims.foldlM
      (fun m claim => do
        let q := qembed (skillQuery claim.skill)
        let idx0 := topk vecs q (min (max 10 (12 - 2)) chunks.length)
        let idx1 := (randPool.take 2).foldl
          (fun l ri => if l.contains ri then l else l ++ [ri]) idx0
        let contexts ← (idx1.take 12).mapM (fun i => chunks.get? i)
        let dec ← llmAssessSkill jload claim contexts (judgeO claim contexts)
        pure (upsert m claim.skill dec))
      []
    some { st with
      decisions_by_skill := decisions,
      meta := { st.meta with skills_judged := some decisions.length } }

/-- Stage `n_assemble`: confidence-weighted severity average scaled to 100,
overclaim count, and the output record.  The output aliases the run's meta
dict, so the `assembled_at` stamp written just after is visible in it. -/
def n_assemble (t : ℚ) (st : InflState) : InflState :=
  let decisions := st.decisions_by_skill
  let sums := decisions.foldl
    (fun (acc : ℚ × ℚ × ℕ) p =>
      let w := max 0.2 p.2.confidence
      (acc.1 + p.2.severity * w, acc.2.1 + w,
        acc.2.2 + (if p.2.overclaim then 1 else 0)))
    (0, 0, 0)
  let inflation : ℚ := if sums.2.1 > 1e-9 then (sums.1 / sums.2.1) * 100 else 0
  let metaF := { st.meta with assembled_at := some t }
  let out : InflOutput := {
    github_user := st.github_user,
    overall_skill_inflation_score := pyRound2 inflation,
    overclaim_count := sums.2.2,
    skills := decisions,
    meta := metaF }
  { st with final_output := some out, meta := metaF }

/-- The external effects of one pipeline run, gathered as parameters. -/
structure PipelineOracles where
  jload : Str → Option JValue
  extractResp : Str
  listRepos : Str → Option (List RepoMeta × PageMeta)
  fetch : Str → Str → Option (Option (List ZipEntry))
  embedO : List Str → List (List ℚ)
  qembed : Str → List ℚ
  topk : List (List ℚ) → List ℚ → ℕ → List ℕ
  judgeO : SkillClaim → List Chunk → Str
  randPool : List ℕ
  t1 : ℚ
  t2 : ℚ

/-- Model of `detect_skill_inflation`: the fixed stage sequence
load, extract, collect, deep-index, judge, assemble on an initial state
holding only the CV. -/
def detect_skill_inflation (ox : PipelineOracles) (cv : JValue) : Option InflState := do
  let s1 := n_load ox.t1 { cv_json := cv }
  let s2 ← n_extract ox.jload ox.extractResp s1
  let s3 ← n_collect_repos ox.listRepos s2
  let s4 := n_deep_index ox.jload ox.fetch ox.embedO s3
  let s5 ← n_judge_skills ox.jload ox.judgeO ox.qembed ox.topk ox.randPool s4
  some (n_assemble ox.t2 s5)

end NS4W

namespace NS4W

open JValue

/-! ## Substring machinery -/

/-- Characterization of `List.isPrefixOf` over characters. -/
theorem isPre_iff (a b : Str) : a.isPrefixOf b = true ↔ ∃ q, b = a ++ q := by
  induction a generalizing b with
  | nil => simp [List.isPrefixOf]
  | cons x xs ih =>
    cases b with
    | nil => simp [List.isPrefixOf]
    | cons y ys =>
      simp only [List.isPrefixOf, Bool.and_eq_true, beq_iff_eq, ih, List.cons_append,
        List.cons.injEq]
      constructor
      · rintro ⟨rfl, q, rfl⟩; exact ⟨q, rfl, rfl⟩
      · rintro ⟨q, rfl, rfl⟩; exact ⟨rfl, q, rfl⟩

/-- Characterization of the Python substring test. -/
theorem isSub_iff (a b : Str) : isSub a b = true ↔ ∃ p q, b = p ++ a ++ q := by
  induction b with
  | nil =>
    simp only [isSub, List.isEmpty_iff]
    constructor
    · rintro rfl; exact ⟨[], [], rfl⟩
    · rintro ⟨p, q, h⟩
      exact (List.append_eq_nil.mp (List.append_eq_nil.mp h.symm).1).2
  | cons y ys ih =>
    simp only [isSub, Bool.or_eq_true, isPre_iff, ih]
    constructor
    · rintro (⟨q, h⟩ | ⟨p, q, h⟩)
      · exact ⟨[], q, by simp [h]⟩
      · exact ⟨y :: p, q, by simp [h]⟩
    · rintro ⟨p, q, h⟩
      cases p with
      | nil => exact Or.inl ⟨q, by simpa using h⟩
      | cons z zs =>
        simp only [List.cons_append, List.cons.injEq] at h
        exact Or.inr ⟨zs, q, h.2⟩

/-- A prefix-truncation of a substring is still a substring. -/
theorem isSub_take {a b : Str} (k : ℕ) (h : isSub a b = true) :
    isSub (a.take k) b = true := by
  rcases (isSub_iff a b).mp h with ⟨p, q, rfl⟩
  refine (isSub_iff _ _).mpr ⟨p, a.drop k ++ q, ?_⟩
  calc p ++ a ++ q
      = p ++ (List.take k a ++ List.drop k a) ++ q := by rw [List.take_append_drop]
    _ = p ++ List.take k a ++ (List.drop k a ++ q) := by simp only [List.append_assoc]

/-- Truncation to a positive bound keeps a string non-empty. -/
theorem take_pos_ne_nil {a : Str} (k : ℕ) (hk : 0 < k) (h : a ≠ []) :
    a.take k ≠ [] := by
  cases a with
  | nil => exact absurd rfl h
  | cons x xs => cases k with
    | zero => omega
    | succ m => simp

/-- Reflexivity of the substring relation. -/
theorem isSub_self (a : Str) : isSub a a = true :=
  (isSub_iff a a).mpr ⟨[], [], by simp⟩

/-- Substrings extend on the right. -/
theorem isSub_app_right {a b : Str} (c : Str) (h : isSub a b = true) :
    isSub a (b ++ c) = true := by
  rcases (isSub_iff a b).mp h with ⟨p, q, rfl⟩
  exact (isSub_iff _ _).mpr ⟨p, q ++ c, by simp⟩

/-- Substrings extend on the left. -/
theorem isSub_app_left {a b : Str} (c : Str) (h : isSub a b = true) :
    isSub a (c ++ b) = true := by
  rcases (isSub_iff a b).mp h with ⟨p, q, rfl⟩
  exact (isSub_iff _ _).mpr ⟨c ++ p, q, by simp⟩

/-- Association-list lookup produces a stored pair. -/
theorem lookup_mem {α : Type} {m : List (Str × α)} {k : Str} {v : α}
    (h : m.lookup k = some v) : (k, v) ∈ m := by
  induction m with
  | nil => simp [List.lookup] at h
  | cons hd t ih =>
    obtain ⟨k', v'⟩ := hd
    rw [List.lookup] at h
    split at h
    · next hbeq =>
      injection h with hv
      subst hv
      have hk : k = k' := eq_of_beq hbeq
      subst hk
      exact List.mem_cons_self _ _
    · next hbeq => exact List.mem_cons_of_mem _ (ih h)

/-- Every pair in an `upsert` result is an original pair or the inserted
one. -/
theorem upsert_mem {α : Type} {m : List (Str × α)} {k : Str} {v : α} :
    ∀ p ∈ upsert m k v, p ∈ m ∨ p = (k, v) := by
  intro p hp
  unfold upsert at hp
  by_cases hs : (m.lookup k).isSome
  · rw [if_pos hs] at hp
    rcases List.mem_map.mp hp with ⟨q, hq, hqe⟩
    by_cases hqk : q.1 = k
    · right; rw [if_pos hqk] at hqe; exact hqe.symm
    · left; rw [if_neg hqk] at hqe; exact hqe ▸ hq
  · rw [if_neg hs] at hp
    rcases List.mem_append.mp hp with h | h
    · exact Or.inl h
    · exact Or.inr (List.mem_singleton.mp h)

/-- Every pair accumulated by a fold of dict assignments comes from the
initial dict or from one of the folded elements. -/
theorem foldl_upsert_mem {α : Type} (key : α → Str) (val : α → Str) :
    ∀ (cs : List α) (m0 : List (Str × Str)) p,
      p ∈ cs.foldl (fun m c => upsert m (key c) (val c)) m0 →
      p ∈ m0 ∨ ∃ c ∈ cs, p = (key c, val c) := by
  intro cs
  induction cs with
  | nil => intro m0 p hp; exact Or.inl hp
  | cons c t ih =>
    intro m0 p hp
    simp only [List.foldl_cons] at hp
    rcases ih (upsert m0 (key c) (val c)) p hp with h | ⟨d, hd, he⟩
    · rcases upsert_mem p h with h' | h'
      · exact Or.inl h'
      · exact Or.inr ⟨c, List.mem_cons_self _ _, h'⟩
    · exact Or.inr ⟨d, List.mem_cons_of_mem _ hd, he⟩

/-- Every pair stored by the candidate-lookup dict of `llm_assess_skill` /
`llm_judge_one_skill` comes from an offered chunk. -/
theorem ctxLookupOf_mem (cs : List Chunk) :
    ∀ p ∈ ctxLookupOf cs, ∃ c ∈ cs, p = (chunkKey c, c.text) := by
  intro p hp
  rcases foldl_upsert_mem chunkKey Chunk.text cs [] p hp with h | h
  · simp at h
  · exact h

/-- Every pair stored by the candidate-lookup dict of `llm_judge_repo` comes
from an offered chunk. -/
theorem ctxLookupAuth_mem (repoFull : Str) (cs : List Chunk) :
    ∀ p ∈ ctxLookupAuth repoFull cs, ∃ c ∈ cs, p = (chunkKeyAuth repoFull c, c.text) := by
  intro p hp
  rcases foldl_upsert_mem (chunkKeyAuth repoFull) Chunk.text cs [] p hp with h | h
  · simp at h
  · exact h

end NS4W

namespace NS4W

open JValue

/-! ## C8: the path filter -/

/-- The directory names inside `SKIP_DIRS`. -/
def skipDirNames : List Str :=
  [str ".git", str "node_modules", str ".venv", str "venv",
   str "dist", str "build", str "__pycache__"]

/-- The skip fragments are exactly the skip names wrapped in slashes. -/
theorem SKIP_DIRS_eq : SKIP_DIRS = skipDirNames.map (fun d => '/' :: (d ++ ['/'])) := by
  decide

/-- C8 (amended): after backslash normalization, `should_keep` rejects every
path in which a skip directory occurs as a slash-delimited component with at
least one parent component before it, and a kept path always carries an
allow-listed extension; overall acceptance is exactly "no slash-wrapped skip
fragment as a substring, and allow-listed extension".  A skip directory that
is the first component of the wrapper-stripped path (repository root) has no
leading slash and is not matched by the filter. -/
theorem c8_path_filter :
    (∀ (p pre post d : Str), d ∈ skipDirNames →
      normSlash p = pre ++ '/' :: (d ++ '/' :: post) → should_keep p = false) ∧
    (∀ p : Str, should_keep p = true → lowerStr (extOf (normSlash p)) ∈ ALLOWED_EXTS) ∧
    (∀ p : Str, should_keep p = true ↔
      ((∀ d ∈ SKIP_DIRS, isSub d (normSlash p) = false) ∧
        lowerStr (extOf (normSlash p)) ∈ ALLOWED_EXTS)) := by
  have hmem : ∀ p : Str, ALLOWED_EXTS.contains (lowerStr (extOf (normSlash p))) = true ↔
      lowerStr (extOf (normSlash p)) ∈ ALLOWED_EXTS := by
    intro p
    exact List.elem_iff
  refine ⟨?_, ?_, ?_⟩
  · intro p pre post d hd heq
    have hfrag : ('/' :: (d ++ ['/'])) ∈ SKIP_DIRS := by
      rw [SKIP_DIRS_eq]
      exact List.mem_map.mpr ⟨d, hd, rfl⟩
    have hsub : isSub ('/' :: (d ++ ['/'])) (normSlash p) = true := by
      rw [heq]
      refine (isSub_iff _ _).mpr ⟨pre, post, ?_⟩
      simp
    have hany : SKIP_DIRS.any (fun f => isSub f (normSlash p)) = true :=
      List.any_eq_true.mpr ⟨_, hfrag, hsub⟩
    unfold should_keep
    simp only [hany]
    rfl
  · intro p hp
    unfold should_keep at hp
    by_cases hany : SKIP_DIRS.any (fun f => isSub f (normSlash p)) = true
    · simp only [hany] at hp
      exact absurd hp (by simp)
    · simp only [Bool.not_eq_true] at hany
      simp only [hany] at hp
      exact (hmem p).mp hp
  · intro p
    unfold should_keep
    by_cases hany : SKIP_DIRS.any (fun f => isSub f (normSlash p)) = true
    · simp only [hany]
      rcases List.any_eq_true.mp hany with ⟨f, hf, hsub⟩
      constructor
      · intro h; exact absurd h (by simp)
      · rintro ⟨hall, -⟩
        exact absurd (hall f hf) (by simp [hsub])
    · simp only [Bool.not_eq_true] at hany
      simp only [hany]
      constructor
      · intro h
        refine ⟨?_, (hmem p).mp h⟩
        intro d hd
        have hall := List.any_eq_false.mp hany
        simpa using hall d hd
      · rintro ⟨-, hext⟩
        exact (hmem p).mpr hext

/-- Closed instantiation of `c8_path_filter`: a nested `node_modules` path is
rejected, an ordinary source path is accepted with its listed extension. -/
theorem c8_path_filter_witness :
    should_keep (str "a/node_modules/x.js") = false ∧
    lowerStr (extOf (normSlash (str "src/app.py"))) ∈ ALLOWED_EXTS :=
  ⟨c8_path_filter.1 (str "a/node_modules/x.js") (str "a") (str "x.js")
      (str "node_modules") (by decide) (by decide),
    c8_path_filter.2.1 (str "src/app.py") (by decide)⟩

/-- Counterexample to C8 as stated: a file directly under a repository-root
`node_modules` survives the wrapper strip with no leading slash, passes
`should_keep`, and is chunked. -/
theorem c8_counterexample :
    stripTop (str "repo-1/node_modules/pkg/index.js") = str "node_modules/pkg/index.js" ∧
    should_keep (str "node_modules/pkg/index.js") = true ∧
    ((build_chunks_from_zip inflationConfig (fun _ => none)
        (some [{ filename := str "repo-1/node_modules/pkg/index.js", isDir := false,
                 raw := str "const x = 1" }]) (str "u/r")).1.map Chunk.file) =
      [str "node_modules/pkg/index.js"] := by
  refine ⟨by decide, by decide, by decide⟩

end NS4W

namespace NS4W

open JValue

/-! ## C1: the evidence trust gate -/

/-- The checks the spec requires of a cited evidence item, relative to the
candidate dict actually offered for the claim. -/
def gateChecks (ctx : List (Str × Str)) (it : EvidenceItem) : Prop :=
  pstrip it.repo ≠ [] ∧ pstrip it.file ≠ [] ∧ pstrip it.lines ≠ [] ∧
  pstrip it.excerpt ≠ [] ∧
  ∃ txt, ctx.lookup (mkKey (pstrip it.repo) (pstrip it.file) (pstrip it.lines)) = some txt ∧
    isSub (pstrip it.excerpt) txt = true

/-- Dissection of a successful `verifyOne`: the kept item has the original
location fields, a truncation of the stripped excerpt, and all gate checks
hold for the input item. -/
theorem verifyOne_some {ctx : List (Str × Str)} {it0 out : EvidenceItem}
    (h : verifyOne ctx it0 = some out) :
    out.repo = it0.repo ∧ out.file = it0.file ∧ out.lines = it0.lines ∧
    out.excerpt = (pstrip it0.excerpt).take 220 ∧ gateChecks ctx it0 := by
  unfold verifyOne at h
  dsimp only at h
  split at h
  · exact absurd h (by simp)
  · next hne =>
    simp only [Bool.or_eq_true, not_or, List.isEmpty_iff] at hne
    obtain ⟨⟨⟨hr, hf⟩, hl⟩, he⟩ := hne
    split at h
    · exact absurd h (by simp)
    · next txt hlk =>
      split at h
      · exact absurd h (by simp)
      · next htxt =>
        split at h
        · next hsub =>
          injection h with h
          subst h
          exact ⟨rfl, rfl, rfl, rfl, hr, hf, hl, he, txt, hlk, hsub⟩
        · exact absurd h (by simp)

/-- Dissection of a successful `verifyOneItems` (skill-mapping variant). -/
theorem verifyOneItems_some {ctx : List (Str × Str)} {it0 out : EvidenceItem}
    (h : verifyOneItems ctx it0 = some out) :
    out.repo = it0.repo ∧ out.file = it0.file ∧ out.lines = it0.lines ∧
    out.excerpt = (pstrip it0.excerpt).take 220 ∧ gateChecks ctx it0 := by
  unfold verifyOneItems at h
  dsimp only at h
  split at h
  · exact absurd h (by simp)
  · next hne =>
    simp only [Bool.or_eq_true, not_or, List.isEmpty_iff] at hne
    obtain ⟨⟨⟨hr, hf⟩, hl⟩, he⟩ := hne
    split at h
    · exact absurd h (by simp)
    · next txt hlk =>
      split at h
      · next hsub =>
        injection h with h
        subst h
        exact ⟨rfl, rfl, rfl, rfl, hr, hf, hl, he, txt, hlk, hsub⟩
      · exact absurd h (by simp)

/-- A failed gate check means `verifyOne` drops the item. -/
theorem verifyOne_none_of_not_gate {ctx : List (Str × Str)} {it : EvidenceItem}
    (h : ¬ gateChecks ctx it) : verifyOne ctx it = none := by
  cases hv : verifyOne ctx it with
  | none => rfl
  | some out => exact absurd (verifyOne_some hv).2.2.2.2 h

/-- A failed gate check means `verifyOneItems` drops the item. -/
theorem verifyOneItems_none_of_not_gate {ctx : List (Str × Str)} {it : EvidenceItem}
    (h : ¬ gateChecks ctx it) : verifyOneItems ctx it = none := by
  cases hv : verifyOneItems ctx it with
  | none => rfl
  | some out => exact absurd (verifyOneItems_some hv).2.2.2.2 h

/-- The record-level property C1 asserts of every surviving evidence item,
relative to the candidate chunks and their key function. -/
def evidenceGrounded (key : Chunk → Str) (contexts : List Chunk) (it : EvidenceItem) : Prop :=
  it.repo ≠ [] ∧ it.file ≠ [] ∧ it.lines ≠ [] ∧ it.excerpt ≠ [] ∧
  ∃ c ∈ contexts,
    key c = mkKey (pstrip it.repo) (pstrip it.file) (pstrip it.lines) ∧
    isSub it.excerpt c.text = true

/-- Every item surviving `verify_evidence` against the candidate dict of the
skill agents is grounded in an offered chunk. -/
theorem verify_evidence_grounded (contexts : List Chunk) (items : List EvidenceItem) :
    ∀ it ∈ verify_evidence items (ctxLookupOf contexts),
      evidenceGrounded chunkKey contexts it := by
  intro it hit
  rcases List.mem_filterMap.mp hit with ⟨it0, _, hv⟩
  obtain ⟨hr, hf, hl, he, hgr, hgf, hgl, hge, txt, hlk, hsub⟩ := verifyOne_some hv
  refine ⟨?_, ?_, ?_, ?_, ?_⟩
  · rw [hr]; intro hc; exact hgr (by simp [hc, pstrip])
  · rw [hf]; intro hc; exact hgf (by simp [hc, pstrip])
  · rw [hl]; intro hc; exact hgl (by simp [hc, pstrip])
  · rw [he]; exact take_pos_ne_nil 220 (by omega) hge
  · rcases ctxLookupOf_mem contexts _ (lookup_mem hlk) with ⟨c, hc, hpair⟩
    injection hpair with hk ht
    refine ⟨c, hc, by rw [hr, hf, hl, ← hk], ?_⟩
    rw [he, ← ht]
    exact isSub_take 220 hsub

/-- Every item surviving `verify_evidence_items` against the candidate dict
of the skill-mapping agent is grounded in an offered chunk. -/
theorem verify_evidence_items_grounded (contexts : List Chunk) (items : List EvidenceItem) :
    ∀ it ∈ verify_evidence_items items (ctxLookupOf contexts),
      evidenceGrounded chunkKey contexts it := by
  intro it hit
  rcases List.mem_filterMap.mp hit with ⟨it0, _, hv⟩
  obtain ⟨hr, hf, hl, he, hgr, hgf, hgl, hge, txt, hlk, hsub⟩ := verifyOneItems_some hv
  refine ⟨?_, ?_, ?_, ?_, ?_⟩
  · rw [hr]; intro hc; exact hgr (by simp [hc, pstrip])
  · rw [hf]; intro hc; exact hgf (by simp [hc, pstrip])
  · rw [hl]; intro hc; exact hgl (by simp [hc, pstrip])
  · rw [he]; exact take_pos_ne_nil 220 (by omega) hge
  · rcases ctxLookupOf_mem contexts _ (lookup_mem hlk) with ⟨c, hc, hpair⟩
    injection hpair with hk ht
    refine ⟨c, hc, by rw [hr, hf, hl, ← hk], ?_⟩
    rw [he, ← ht]
    exact isSub_take 220 hsub

/-- Every item surviving `verify_evidence` against the candidate dict of
`llm_judge_repo` is grounded in an offered chunk. -/
theorem verify_evidence_auth_grounded (repoFull : Str) (contexts : List Chunk)
    (items : List EvidenceItem) :
    ∀ it ∈ verify_evidence items (ctxLookupAuth repoFull contexts),
      evidenceGrounded (chunkKeyAuth repoFull) contexts it := by
  intro it hit
  rcases List.mem_filterMap.mp hit with ⟨it0, _, hv⟩
  obtain ⟨hr, hf, hl, he, hgr, hgf, hgl, hge, txt, hlk, hsub⟩ := verifyOne_some hv
  refine ⟨?_, ?_, ?_, ?_, ?_⟩
  · rw [hr]; intro hc; exact hgr (by simp [hc, pstrip])
  · rw [hf]; intro hc; exact hgf (by simp [hc, pstrip])
  · rw [hl]; intro hc; exact hgl (by simp [hc, pstrip])
  · rw [he]; exact take_pos_ne_nil 220 (by omega) hge
  · rcases ctxLookupAuth_mem repoFull contexts _ (lookup_mem hlk) with ⟨c, hc, hpair⟩
    injection hpair with hk ht
    refine ⟨c, hc, by rw [hr, hf, hl, ← hk], ?_⟩
    rw [he, ← ht]
    exact isSub_take 220 hsub

/-- The evidence list of a finalized skill-inflation decision is a
`verify_evidence` result over the offered candidates. -/
theorem llmAssessFinalize_evidence {claim : SkillClaim} {contexts : List Chunk}
    {data : JValue} {dec : SkillDecision}
    (h : llmAssessFinalize claim contexts data = some dec) :
    ∃ items, dec.evidence = verify_evidence items (ctxLookupOf contexts) := by
  unfold llmAssessFinalize at h
  simp only [bind, Option.bind_eq_some] at h
  obtain ⟨v1, h1, h⟩ := h
  obtain ⟨v2, h2, h⟩ := h
  obtain ⟨v3, h3, h⟩ := h
  obtain ⟨v4, h4, h⟩ := h
  obtain ⟨v5, h5, h⟩ := h
  obtain ⟨v6, h6, h⟩ := h
  injection h with h
  subst h
  exact ⟨_, rfl⟩

/-- The evidence list of a finalized skill-mapping decision is empty or a
`verify_evidence_items` result over the offered candidates. -/
theorem llmJudgeOneSkillFinalize_evidence {contexts : List Chunk}
    {data : JValue} {dec : MapDecision}
    (h : llmJudgeOneSkillFinalize contexts data = some dec) :
    dec.evidence = [] ∨
      ∃ items, dec.evidence = verify_evidence_items items (ctxLookupOf contexts) := by
  unfold llmJudgeOneSkillFinalize at h
  simp only [bind, Option.bind_eq_some] at h
  obtain ⟨v1, h1, h⟩ := h
  obtain ⟨v2, h2, h⟩ := h
  obtain ⟨v3, h3, h⟩ := h
  obtain ⟨v4, h4, h⟩ := h
  split at h
  · injection h with h
    subst h
    exact Or.inl rfl
  · injection h with h
    subst h
    exact Or.inr ⟨_, rfl⟩

/-- The evidence list of a finalized authenticity decision is a
`verify_evidence` result over the offered candidates. -/
theorem llmJudgeRepoFinalize_evidence {repoFull : Str} {signals : JValue}
    {contexts : List Chunk} {data : JValue} {dec : RepoAuthenticity}
    (h : llmJudgeRepoFinalize repoFull signals contexts data = some dec) :
    ∃ items, dec.evidence = verify_evidence items (ctxLookupAuth repoFull contexts) := by
  unfold llmJudgeRepoFinalize at h
  simp only [bind, Option.bind_eq_some] at h
  obtain ⟨v1, h1, h⟩ := h
  obtain ⟨v2, h2, h⟩ := h
  obtain ⟨v3, h3, h⟩ := h
  obtain ⟨v4, h4, h⟩ := h
  obtain ⟨v5, h5, h⟩ := h
  obtain ⟨v6, h6, h⟩ := h
  obtain ⟨v7, h7, h⟩ := h
  injection h with h
  subst h
  exact ⟨_, rfl⟩

/-- C1: in each of the three judges, every evidence item on a finalized
decision has non-empty cited fields, its (repo, file, lines) key matches a
candidate actually offered to the oracle for that claim, and its excerpt is
an exact substring of that candidate's true chunk text; and any cited item
failing one of these checks contributes nothing to the surviving list (it
is dropped, not corrected). -/
theorem c1_evidence_trust_gate :
    (∀ (jload : Str → Option JValue) (claim : SkillClaim) (contexts : List Chunk)
        (resp : Str) (dec : SkillDecision),
      llmAssessSkill jload claim contexts resp = some dec →
      ∀ it ∈ dec.evidence, evidenceGrounded chunkKey contexts it) ∧
    (∀ (jload : Str → Option JValue) (contexts : List Chunk) (resp : Str)
        (dec : MapDecision),
      llmJudgeOneSkill jload contexts resp = some dec →
      ∀ it ∈ dec.evidence, evidenceGrounded chunkKey contexts it) ∧
    (∀ (jload : Str → Option JValue) (repoFull : Str) (signals : JValue)
        (contexts : List Chunk) (resp : Str) (dec : RepoAuthenticity),
      llmJudgeRepo jload repoFull signals contexts resp = some dec →
      ∀ it ∈ dec.evidence, evidenceGrounded (chunkKeyAuth repoFull) contexts it) ∧
    (∀ (ctx : List (Str × Str)) (it : EvidenceItem) (rest : List EvidenceItem),
      ¬ gateChecks ctx it →
        verify_evidence (it :: rest) ctx = verify_evidence rest ctx ∧
        verify_evidence_items (it :: rest) ctx = verify_evidence_items rest ctx) := by
  refine ⟨?_, ?_, ?_, ?_⟩
  · intro jload claim contexts resp dec h it hit
    rcases llmAssessFinalize_evidence h with ⟨items, he⟩
    rw [he] at hit
    exact verify_evidence_grounded contexts items it hit
  · intro jload contexts resp dec h it hit
    rcases llmJudgeOneSkillFinalize_evidence h with he | ⟨items, he⟩
    · rw [he] at hit; exact absurd hit (List.not_mem_nil it)
    · rw [he] at hit
      exact verify_evidence_items_grounded contexts items it hit
  · intro jload repoFull signals contexts resp dec h it hit
    rcases llmJudgeRepoFinalize_evidence h with ⟨items, he⟩
    rw [he] at hit
    exact verify_evidence_auth_grounded repoFull contexts items it hit
  · intro ctx it rest hng
    constructor
    · unfold verify_evidence
      rw [List.filterMap_cons, verifyOne_none_of_not_gate hng]
    · unfold verify_evidence_items
      rw [List.filterMap_cons, verifyOneItems_none_of_not_gate hng]

end NS4W

namespace NS4W

open JValue

/-- Concrete candidate chunk used to instantiate the trust-gate theorem. -/
def c1chunk : Chunk :=
  { id := str "u/r:a.py:1-2:0", repo := str "u/r", file := str "a.py",
    start_line := 1, end_line := 2, text := str "alpha\nbeta" }

/-- Concrete claim used to instantiate the trust-gate theorem. -/
def c1claim : SkillClaim :=
  { skill := str "Python", claim_text := str "", claimed_level := str "unknown",
    source := str "skills" }

/-- Concrete parsed oracle payload citing the offered chunk verbatim. -/
def c1data : JValue :=
  jobj [(str "evidence", jarr [jobj
    [(str "repo", jstr (str "u/r")), (str "file", jstr (str "a.py")),
     (str "lines", jstr (str "L1-L2")), (str "excerpt", jstr (str "beta"))]])]

/-- Stub for `json.loads` on the single response exchanged in the
instantiation. -/
def c1jload : Str → Option JValue := fun s => if s = str "RESP" then some c1data else none

/-- The verified evidence item surviving the gate in the instantiation. -/
def c1item : EvidenceItem :=
  { repo := str "u/r", file := str "a.py", lines := str "L1-L2",
    excerpt := str "beta", reasoning := str "" }

/-- The decision the skill-inflation judge finalizes in the instantiation. -/
def c1dec : SkillDecision :=
  { claimed_level := str "unknown", observed_level := str "unclear",
    overclaim := false, severity := 0, confidence := 0, evidence := [c1item],
    notes := str "" }

/-- Closed instantiation of `c1_evidence_trust_gate` at a concrete judged
response. -/
theorem c1_evidence_trust_gate_witness : evidenceGrounded chunkKey [c1chunk] c1item :=
  (c1_evidence_trust_gate.1 c1jload c1claim [c1chunk] (str "RESP") c1dec (by decide))
    c1item (by decide)

end NS4W

namespace NS4W

open JValue

/-! ## C2: conservative downgrade on unverified positive labels -/

/-- C2: in each judge, when the oracle's label asserts a positive claim
(status "supported" / overclaim true / an inauthenticity label) but zero
evidence items survive verification, the finalized decision carries the
safest label and confidence 0. -/
theorem c2_conservative_downgrade :
    (∀ (contexts : List Chunk) (data : JValue) (dec : MapDecision) (stV : JValue),
      llmJudgeOneSkillFinalize contexts data = some dec →
      pyGetD data (str "status") (jstr (str "unsupported")) = some stV →
      lowerStr (pyStr stV) = str "supported" →
      dec.evidence = [] →
      dec.status = str "unsupported" ∧ dec.fake = true ∧ dec.confidence = 0) ∧
    (∀ (claim : SkillClaim) (contexts : List Chunk) (data : JValue)
        (dec : SkillDecision) (ocV : JValue),
      llmAssessFinalize claim contexts data = some dec →
      pyGetD data (str "overclaim") (jbool false) = some ocV →
      pyTruthy ocV = true →
      dec.evidence = [] →
      dec.overclaim = false ∧ dec.confidence = 0) ∧
    (∀ (repoFull : Str) (signals : JValue) (contexts : List Chunk) (data : JValue)
        (dec : RepoAuthenticity) (lbV : JValue) (l : Str),
      llmJudgeRepoFinalize repoFull signals contexts data = some dec →
      pyGet data (str "labels") = some lbV →
      l ∈ (match orElseJ lbV (jarr [jstr (str "unclear")]) with
           | jarr xs => (xs.map pyStr).take 6
           | _ => [str "unclear"]) →
      l ∈ badLabels →
      dec.evidence = [] →
      dec.labels = [str "unclear"] ∧ dec.confidence = 0) := by
  refine ⟨?_, ?_, ?_⟩
  · intro contexts data dec stV h hst hsup hev
    unfold llmJudgeOneSkillFinalize at h
    simp only [bind, Option.bind_eq_some] at h
    obtain ⟨v1, h1, h⟩ := h
    obtain ⟨v2, h2, h⟩ := h
    obtain ⟨v3, h3, h⟩ := h
    obtain ⟨v4, h4, h⟩ := h
    rw [h1] at hst
    injection hst with he
    subst he
    split at h
    · injection h with h
      subst h
      exact ⟨rfl, rfl, rfl⟩
    · next hcond =>
      injection h with h
      subst h
      dsimp only at hev
      exact absurd ⟨hsup, by rw [hev]; rfl⟩ hcond
  · intro claim contexts data dec ocV h hoc htr hev
    unfold llmAssessFinalize at h
    simp only [bind, Option.bind_eq_some] at h
    obtain ⟨v1, h1, h⟩ := h
    obtain ⟨v2, h2, h⟩ := h
    obtain ⟨v3, h3, h⟩ := h
    obtain ⟨v4, h4, h⟩ := h
    obtain ⟨v5, h5, h⟩ := h
    obtain ⟨v6, h6, h⟩ := h
    rw [h4] at hoc
    injection hoc with he
    subst he
    injection h with h
    subst h
    dsimp only at hev ⊢
    have hcond : pyTruthy v4 = true ∧
        (verify_evidence (parseEvList (orElseJ v6 (jarr [])) 4 (str ""))
          (ctxLookupOf contexts)).isEmpty = true := ⟨htr, by rw [hev]; rfl⟩
    rw [if_pos hcond]
    exact ⟨rfl, rfl⟩
  · intro repoFull signals contexts data dec lbV l h hlb hmem hbad hev
    unfold llmJudgeRepoFinalize at h
    simp only [bind, Option.bind_eq_some] at h
    obtain ⟨v1, h1, h⟩ := h
    obtain ⟨v2, h2, h⟩ := h
    obtain ⟨v3, h3, h⟩ := h
    obtain ⟨v4, h4, h⟩ := h
    obtain ⟨v5, h5, h⟩ := h
    obtain ⟨v6, h6, h⟩ := h
    obtain ⟨v7, h7, h⟩ := h
    rw [h3] at hlb
    injection hlb with he
    subst he
    injection h with h
    subst h
    dsimp only at hev ⊢
    have hany : ((match orElseJ v3 (jarr [jstr (str "unclear")]) with
        | jarr xs => (xs.map pyStr).take 6
        | _ => [str "unclear"]).any fun lb => badLabels.contains lb) = true :=
      List.any_eq_true.mpr ⟨l, hmem, List.elem_iff.mpr hbad⟩
    have hcond : ((match orElseJ v3 (jarr [jstr (str "unclear")]) with
        | jarr xs => (xs.map pyStr).take 6
        | _ => [str "unclear"]).any fun lb => badLabels.contains lb) = true ∧
        (verify_evidence (parseEvList (orElseJ v6 (jarr [])) 4 repoFull)
          (ctxLookupAuth repoFull contexts)).isEmpty = true := ⟨hany, by rw [hev]; rfl⟩
    rw [if_pos hcond]
    exact ⟨rfl, rfl⟩

end NS4W

namespace NS4W

open JValue

/-- Concrete claim for the downgrade instantiation. -/
def c2claim : SkillClaim :=
  { skill := str "Docker", claim_text := str "", claimed_level := str "expert",
    source := str "skills" }

/-- Oracle payload asserting "supported" with no evidence (mapping agent). -/
def c2mdata : JValue := jobj [(str "status", jstr (str "supported"))]

/-- The downgraded mapping decision. -/
def c2mdec : MapDecision :=
  { status := str "unsupported", fake := true, confidence := 0, evidence := [] }

/-- Oracle payload asserting an overclaim with no evidence (inflation
agent). -/
def c2idata : JValue := jobj [(str "overclaim", jbool true)]

/-- The downgraded inflation decision. -/
def c2idec : SkillDecision :=
  { claimed_level := str "expert", observed_level := str "unclear",
    overclaim := false, severity := 0, confidence := 0, evidence := [],
    notes := str " (downgraded: no verifiable evidence)" }

/-- Oracle payload asserting an inauthenticity label with no evidence
(authenticity agent). -/
def c2adata : JValue := jobj [(str "labels", jarr [jstr (str "ai_generated")])]

/-- The downgraded authenticity decision. -/
def c2adec : RepoAuthenticity :=
  { scan_mode := str "deep", authenticity_score := qclamp 0 100 50,
    labels := [str "unclear"], confidence := 0, signals := jnull,
    evidence := [], notes := str "" }

/-- Closed instantiation of `c2_conservative_downgrade` in all three
judges. -/
theorem c2_conservative_downgrade_witness :
    (c2mdec.status = str "unsupported" ∧ c2mdec.fake = true ∧ c2mdec.confidence = 0) ∧
    (c2idec.overclaim = false ∧ c2idec.confidence = 0) ∧
    (c2adec.labels = [str "unclear"] ∧ c2adec.confidence = 0) :=
  ⟨c2_conservative_downgrade.1 [] c2mdata c2mdec (jstr (str "supported"))
      (by decide) rfl (by decide) rfl,
   c2_conservative_downgrade.2.1 c2claim [] c2idata c2idec (jbool true)
      (by decide) rfl (by decide) rfl,
   c2_conservative_downgrade.2.2 (str "u/r") jnull [] c2adata c2adec
      (jarr [jstr (str "ai_generated")]) (str "ai_generated")
      rfl rfl (by decide) (by decide) rfl⟩

end NS4W

namespace NS4W

open JValue

/-! ## C5: defensive parsing of oracle output -/

/-- Stub for `json.loads` on the single malformed-field response: the JSON
text parses strictly to an object whose confidence field is null. -/
def c5jload : Str → Option JValue :=
  fun s => if s = str "RESP5" then some (jobj [(str "confidence", jnull)]) else none

/-- Claim judged in the C5 evaluations. -/
def c5claim : SkillClaim :=
  { skill := str "Rust", claim_text := str "", claimed_level := str "expert",
    source := str "skills" }

/-- The safest decision produced when the oracle text contains no JSON at
all. -/
def c5safest : SkillDecision :=
  { claimed_level := str "expert", observed_level := str "unclear",
    overclaim := false, severity := 0, confidence := 0, evidence := [],
    notes := str "" }

/-- C5 evaluations: a well-formed JSON response whose `confidence` is null
makes `llm_assess_skill` raise (`float(None)`, modelled as `none`), so the
judge is not exception-free; whereas a completely unparseable response does
fall back to the safest decision. -/
theorem c5_malformed_oracle_output :
    llmAssessSkill c5jload c5claim [] (str "RESP5") = none ∧
    llmAssessSkill (fun _ => none) c5claim [] (str "no json here") = some c5safest := by
  exact ⟨by decide, by decide⟩

/-! ## C10: the severity mapping -/

/-- Severity takes only the values 0, 0.6 and 1. -/
theorem severityOf_mem (cr obr : ℕ) (oc : Bool) :
    severityOf cr obr oc = 0 ∨ severityOf cr obr oc = 0.6 ∨ severityOf cr obr oc = 1 := by
  unfold severityOf
  split_ifs <;> simp

/-- The final clamp on severity is the identity. -/
theorem qclamp_severityOf (cr obr : ℕ) (oc : Bool) :
    qclamp 0 1 (severityOf cr obr oc) = severityOf cr obr oc := by
  rcases severityOf_mem cr obr oc with h | h | h <;> rw [h] <;> norm_num [qclamp]

/-- Stub for `json.loads` on the C10 response: observed beginner, overclaim
asserted, nothing cited. -/
def c10jload : Str → Option JValue :=
  fun s =>
    if s = str "RESP10" then
      some (jobj [(str "observed_level", jstr (str "beginner")),
                  (str "overclaim", jbool true)])
    else none

/-- Claim judged in the C10 instantiation. -/
def c10claim : SkillClaim :=
  { skill := str "Kubernetes", claim_text := str "", claimed_level := str "expert",
    source := str "skills" }

/-- The decision finalized in the C10 instantiation: overclaim downgraded,
no evidence, severity still 1 from the two-level rank gap. -/
def c10dec : SkillDecision :=
  { claimed_level := str "expert", observed_level := str "beginner",
    overclaim := false, severity := 1, confidence := 0, evidence := [],
    notes := str " (downgraded: no verifiable evidence)" }

/-- C10: every finalized skill-inflation decision has severity in
(0, 0.6, 1), equal to the pure function of the claimed/observed rank gap
and the (post-downgrade) overclaim flag; and in particular severity can be
positive while the overclaim flag was downgraded to false and the verified
evidence list is empty. -/
theorem c10_severity_mapping :
    (∀ (jload : Str → Option JValue) (claim : SkillClaim) (contexts : List Chunk)
        (resp : Str) (dec : SkillDecision),
      llmAssessSkill jload claim contexts resp = some dec →
      (dec.severity = 0 ∨ dec.severity = 0.6 ∨ dec.severity = 1) ∧
      dec.severity = severityOf (rankLevel claim.claimed_level)
        (rankLevel dec.observed_level) dec.overclaim) ∧
    (llmAssessSkill c10jload c10claim [] (str "RESP10") = some c10dec ∧
      c10dec.overclaim = false ∧ c10dec.evidence = [] ∧ 0 < c10dec.severity) := by
  constructor
  · intro jload claim contexts resp dec h
    unfold llmAssessSkill llmAssessFinalize at h
    simp only [bind, Option.bind_eq_some] at h
    obtain ⟨v1, h1, h⟩ := h
    obtain ⟨v2, h2, h⟩ := h
    obtain ⟨v3, h3, h⟩ := h
    obtain ⟨v4, h4, h⟩ := h
    obtain ⟨v5, h5, h⟩ := h
    obtain ⟨v6, h6, h⟩ := h
    injection h with h
    subst h
    dsimp only
    refine ⟨?_, qclamp_severityOf _ _ _⟩
    rw [qclamp_severityOf]
    exact severityOf_mem _ _ _
  · exact ⟨by decide, by decide, by decide, by decide⟩

/-- Closed instantiation of the universal part of `c10_severity_mapping`. -/
theorem c10_severity_mapping_witness :
    (c10dec.severity = 0 ∨ c10dec.severity = 0.6 ∨ c10dec.severity = 1) ∧
    c10dec.severity = severityOf (rankLevel c10claim.claimed_level)
      (rankLevel c10dec.observed_level) c10dec.overclaim :=
  c10_severity_mapping.1 c10jload c10claim [] (str "RESP10") c10dec (by decide)

end NS4W

namespace NS4W

open JValue

/-! ## C7: window structure of `chunk_text_lines` -/

/-- Auxiliary: dropping the head of a non-empty tail keeps the last
element. -/
theorem getLast?_cons_ne {α : Type} (a : α) (l : List α) (h : l ≠ []) :
    (a :: l).getLast? = l.getLast? := by
  cases l with
  | nil => exact absurd rfl h
  | cons b t => exact List.getLast?_cons_cons

/-- Invariant of the window loop: with fuel at least the number of remaining
lines and a strictly advancing start (overlap < maxLines), every produced
window is the canonical window at some start at or past `i`, the first
window starts at `i`, the last window ends at the last line, and every
window starts `overlap` lines before the previous window's end. -/
theorem chunkAux_spec (lines : List Str) (maxL ov : ℕ) (hov : ov < maxL) :
    ∀ (fuel i : ℕ), lines.length ≤ i + fuel → i < lines.length →
      (∀ w ∈ chunkAux lines maxL ov fuel i, ∃ i0, i ≤ i0 ∧ i0 < lines.length ∧
          w = (i0 + 1, min lines.length (i0 + maxL),
            joinNL ((lines.drop i0).take maxL))) ∧
      (chunkAux lines maxL ov fuel i).head? =
        some (i + 1, min lines.length (i + maxL), joinNL ((lines.drop i).take maxL)) ∧
      ((chunkAux lines maxL ov fuel i).getLast?).map (fun w => w.2.1) =
        some lines.length ∧
      List.Chain' (fun a b => b.1 = a.2.1 - ov + 1) (chunkAux lines maxL ov fuel i) := by
  intro fuel
  induction fuel with
  | zero => intro i hfuel hi; omega
  | succ f ih =>
    intro i hfuel hi
    rw [chunkAux, if_pos hi]
    dsimp only
    by_cases hj : min lines.length (i + maxL) = lines.length
    · rw [if_pos hj]
      refine ⟨?_, rfl, ?_, ?_⟩
      · intro w hw
        rcases List.mem_singleton.mp hw with rfl
        exact ⟨i, le_refl i, hi, rfl⟩
      · simp [List.getLast?, hj]
      · simp
    · rw [if_neg hj]
      have hlt : i + maxL < lines.length := by
        rcases le_or_lt lines.length (i + maxL) with h | h
        · exact absurd (min_eq_left h) hj
        · exact h
      have hmin : min lines.length (i + maxL) = i + maxL := min_eq_right (le_of_lt hlt)
      rw [hmin]
      have hre1 : lines.length ≤ (i + maxL - ov) + f := by omega
      have hre2 : i + maxL - ov < lines.length := by omega
      obtain ⟨ihAll, ihHead, ihLast, ihChain⟩ := ih (i + maxL - ov) hre1 hre2
      have hne : chunkAux lines maxL ov f (i + maxL - ov) ≠ [] := by
        intro hnil
        rw [hnil] at ihHead
        simp at ihHead
      refine ⟨?_, rfl, ?_, ?_⟩
      · intro w hw
        rcases List.mem_cons.mp hw with rfl | hw
        · exact ⟨i, le_refl i, hi, by rw [hmin]⟩
        · rcases ihAll w hw with ⟨i0, hge, hlt0, hw0⟩
          exact ⟨i0, by omega, hlt0, hw0⟩
      · rw [getLast?_cons_ne _ _ hne]
        exact ihLast
      · rw [List.chain'_cons']
        refine ⟨?_, ihChain⟩
        intro b hb
        rw [ihHead] at hb
        have hbe : (i + maxL - ov + 1, min lines.length (i + maxL - ov + maxL),
            joinNL ((lines.drop (i + maxL - ov)).take maxL)) = b := by
          simpa using hb
        rw [← hbe]

end NS4W

namespace NS4W

open JValue

/-- Every chunk accumulated by the window loop is either pre-existing or
minted from a non-whitespace window of the current file. -/
theorem addWindows_mem (cfg : ChunkConfig) (repo path : Str) :
    ∀ (ws : List (ℕ × ℕ × Str)) (lid : ℕ) (acc : List Chunk),
      ∀ ch ∈ (addWindows cfg repo path ws lid acc).1,
        ch ∈ acc ∨ ∃ w ∈ ws, (pstrip w.2.2).isEmpty = false ∧
          ch.repo = repo ∧ ch.file = path ∧ ch.start_line = w.1 ∧
          ch.end_line = w.2.1 ∧ ch.text = w.2.2 := by
  intro ws
  induction ws with
  | nil =>
    intro lid acc ch hch
    rw [addWindows] at hch
    exact Or.inl hch
  | cons w ws ih =>
    intro lid acc ch hch
    rw [addWindows] at hch
    by_cases hws : (pstrip w.2.2).isEmpty = true
    · rw [if_pos hws] at hch
      rcases ih _ _ ch hch with h | ⟨w', hw', hprops⟩
      · exact Or.inl h
      · exact Or.inr ⟨w', List.mem_cons_of_mem _ hw', hprops⟩
    · rw [if_neg hws] at hch
      dsimp only at hch
      have hfalse : (pstrip w.2.2).isEmpty = false := by
        simpa using hws
      split at hch
      · rcases List.mem_append.mp hch with h | h
        · exact Or.inl h
        · rcases List.mem_singleton.mp h with rfl
          exact Or.inr ⟨w, List.mem_cons_self _ _, hfalse, rfl, rfl, rfl, rfl, rfl⟩
      · rcases ih _ _ ch hch with h | ⟨w', hw', hprops⟩
        · rcases List.mem_append.mp h with h' | h'
          · exact Or.inl h'
          · rcases List.mem_singleton.mp h' with rfl
            exact Or.inr ⟨w, List.mem_cons_self _ _, hfalse, rfl, rfl, rfl, rfl, rfl⟩
        · exact Or.inr ⟨w', List.mem_cons_of_mem _ hw', hprops⟩

/-- The text actually windowed for an entry: the decoded content, passed
through the notebook preprocessor for `.ipynb` files. -/
def entrySrc (jload : Str → Option JValue) (e : ZipEntry) : Str :=
  if (str ".ipynb").isSuffixOf (lowerStr (stripTop e.filename)) then
    extract_text_from_ipynb jload e.raw
  else e.raw

/-- Shape of the chunks C7/C3 reason about: minted from a non-whitespace
window of a non-directory entry's (possibly notebook-preprocessed) text. -/
def chunkFromEntry (cfg : ChunkConfig) (jload : Str → Option JValue) (repo : Str)
    (e : ZipEntry) (ch : Chunk) : Prop :=
  e.isDir = false ∧ ch.repo = repo ∧ ch.file = stripTop e.filename ∧
  ∃ w ∈ chunk_text_lines (entrySrc jload e) cfg.chunkMaxLines cfg.chunkOverlap,
    (pstrip w.2.2).isEmpty = false ∧
    ch.start_line = w.1 ∧ ch.end_line = w.2.1 ∧ ch.text = w.2.2

/-- Every chunk produced by the entry loop is either pre-existing or minted
from a window of one of the entries. -/
theorem buildLoop_mem (cfg : ChunkConfig) (jload : Str → Option JValue) (repo : Str) :
    ∀ (entries : List ZipEntry) (tb fs lid : ℕ) (acc : List Chunk),
      ∀ ch ∈ buildLoop cfg jload repo entries tb fs lid acc,
        ch ∈ acc ∨ ∃ e ∈ entries, chunkFromEntry cfg jload repo e ch := by
  intro entries
  induction entries with
  | nil =>
    intro tb fs lid acc ch hch
    rw [buildLoop] at hch
    exact Or.inl hch
  | cons e rest ih =>
    intro tb fs lid acc ch hch
    have promote : ch ∈ acc ∨ (∃ e' ∈ rest, chunkFromEntry cfg jload repo e' ch) →
        ch ∈ acc ∨ ∃ e' ∈ e :: rest, chunkFromEntry cfg jload repo e' ch := by
      rintro (h | ⟨e', he', hp⟩)
      · exact Or.inl h
      · exact Or.inr ⟨e', List.mem_cons_of_mem _ he', hp⟩
    rw [buildLoop] at hch
    by_cases h1 : e.isDir = true
    · rw [if_pos h1] at hch
      exact promote (ih _ _ _ _ ch hch)
    · rw [if_neg h1] at hch
      by_cases h2 : cfg.maxFilesPerRepo ≤ fs
      · rw [if_pos h2] at hch
        exact Or.inl hch
      · rw [if_neg h2] at hch
        by_cases h3 : cfg.maxFileBytes < e.raw.length
        · rw [if_pos h3] at hch
          exact promote (ih _ _ _ _ ch hch)
        · rw [if_neg h3] at hch
          dsimp only at hch
          by_cases h4 : (stripTop e.filename).isEmpty = true ∨
              ¬ should_keep (stripTop e.filename) = true
          · rw [if_pos h4] at hch
            exact promote (ih _ _ _ _ ch hch)
          · rw [if_neg h4] at hch
            by_cases h5 : cfg.maxZipBytes < tb + e.raw.length
            · rw [if_pos h5] at hch
              exact Or.inl hch
            · rw [if_neg h5] at hch
              have fromWin :
                  ch ∈ (addWindows cfg repo (stripTop e.filename)
                    (chunk_text_lines
                      (if (str ".ipynb").isSuffixOf (lowerStr (stripTop e.filename)) then
                        extract_text_from_ipynb jload e.raw else e.raw)
                      cfg.chunkMaxLines cfg.chunkOverlap) lid acc).1 →
                  ch ∈ acc ∨ ∃ e' ∈ e :: rest, chunkFromEntry cfg jload repo e' ch := by
                intro hmem
                rcases addWindows_mem cfg repo (stripTop e.filename) _ _ _ ch hmem with
                  h | ⟨w, hw, hwe, hr, hf, hs, hen, ht⟩
                · exact Or.inl h
                · exact Or.inr ⟨e, List.mem_cons_self _ _,
                    by simpa using h1, hr, hf, w, hw, hwe, hs, hen, ht⟩
              by_cases h6 : (addWindows cfg repo (stripTop e.filename)
                  (chunk_text_lines
                    (if (str ".ipynb").isSuffixOf (lowerStr (stripTop e.filename)) then
                      extract_text_from_ipynb jload e.raw else e.raw)
                    cfg.chunkMaxLines cfg.chunkOverlap) lid acc).2.2 = true
              · rw [if_pos h6] at hch
                exact fromWin hch
              · rw [if_neg h6] at hch
                rcases ih _ _ _ _ ch hch with h | hp
                · exact fromWin h
                · exact promote (Or.inr hp)

/-- Every chunk built from a parsed archive is minted from a window of one
of its entries. -/
theorem build_chunks_from_zip_mem (cfg : ChunkConfig) (jload : Str → Option JValue)
    (entries : List ZipEntry) (repo : Str) :
    ∀ ch ∈ (build_chunks_from_zip cfg jload (some entries) repo).1,
      ∃ e ∈ entries, chunkFromEntry cfg jload repo e ch := by
  intro ch hch
  rcases buildLoop_mem cfg jload repo entries 0 0 0 [] ch
      (by simpa [build_chunks_from_zip] using hch) with h | h
  · exact absurd h (List.not_mem_nil ch)
  · exact h

end NS4W

namespace NS4W

open JValue

/-- The 300-line file of the spec's worked example (300 lines of `a`). -/
def c7text300 : Str := joinNL (List.replicate 300 ['a'])

set_option maxRecDepth 1000000 in
/-- C7: `chunk_text_lines` splits a text by line into windows whose text is
exactly the joined slice of `maxLines` lines from their start, the first
window starts at line 1, each next window starts `overlap` lines before the
previous window's end (i.e. at end − overlap + 1), the last window ends at
the file's last line, whitespace-only windows never survive into built
chunks, and the 300-line file with maxLines 140 / overlap 25 yields exactly
the windows (1,140), (116,255), (231,300). -/
theorem c7_chunking_windows :
    (∀ (text : Str) (maxL ov : ℕ), ov < maxL →
      (∀ w ∈ chunk_text_lines text maxL ov, ∃ i0, i0 < (splitlines text).length ∧
        w = (i0 + 1, min (splitlines text).length (i0 + maxL),
          joinNL (((splitlines text).drop i0).take maxL))) ∧
      (0 < (splitlines text).length →
        (chunk_text_lines text maxL ov).head?.map (fun w => w.1) = some 1) ∧
      (0 < (splitlines text).length →
        ((chunk_text_lines text maxL ov).getLast?).map (fun w => w.2.1) =
          some (splitlines text).length) ∧
      List.Chain' (fun a b => b.1 = a.2.1 - ov + 1) (chunk_text_lines text maxL ov)) ∧
    (∀ (cfg : ChunkConfig) (jload : Str → Option JValue) (z : Option (List ZipEntry))
        (repo : Str), ∀ ch ∈ (build_chunks_from_zip cfg jload z repo).1,
        pstrip ch.text ≠ []) ∧
    ((chunk_text_lines c7text300 140 25).map (fun w => (w.1, w.2.1)) =
      [(1, 140), (116, 255), (231, 300)]) := by
  refine ⟨?_, ?_, ?_⟩
  · intro text maxL ov hov
    unfold chunk_text_lines
    by_cases hn : (splitlines text).length = 0
    · have h0 : chunkAux (splitlines text) maxL ov (splitlines text).length 0 = [] := by
        rw [hn, chunkAux]
      rw [h0]
      refine ⟨by simp, fun hpos => by omega, fun hpos => by omega, by simp⟩
    · have hpos : 0 < (splitlines text).length := Nat.pos_of_ne_zero hn
      obtain ⟨hAll, hHead, hLast, hChain⟩ :=
        chunkAux_spec (splitlines text) maxL ov hov (splitlines text).length 0
          (by omega) hpos
      refine ⟨?_, ?_, ?_, hChain⟩
      · intro w hw
        rcases hAll w hw with ⟨i0, _, hlt, hw0⟩
        exact ⟨i0, hlt, hw0⟩
      · intro _
        rw [hHead]
        rfl
      · intro _
        exact hLast
  · intro cfg jload z repo ch hch
    cases z with
    | none =>
      exact absurd (by simp [build_chunks_from_zip] at hch) (List.not_mem_nil ch)
    | some entries =>
      rcases build_chunks_from_zip_mem cfg jload entries repo ch hch with
        ⟨e, _, _, _, _, w, _, hwe, _, _, ht⟩
      intro hc
      rw [ht] at hc
      simp [hc] at hwe
  · decide

set_option maxRecDepth 1000000 in
/-- Closed instantiation of `c7_chunking_windows` on the worked example. -/
theorem c7_chunking_windows_witness :
    List.Chain' (fun a b => b.1 = a.2.1 - 25 + 1) (chunk_text_lines c7text300 140 25) :=
  (c7_chunking_windows.1 c7text300 140 25 (by decide)).2.2.2

end NS4W

namespace NS4W

open JValue

/-! ## C3: chunk text versus decoded file content -/

/-- The empty needle is a substring of everything. -/
theorem isSub_nil (h : Str) : isSub [] h = true := by
  cases h <;> simp [isSub, List.isPrefixOf]

/-- Unfolding of the joiner on a cons with a non-empty tail. -/
theorem joinNL_cons (x : Str) (l : List Str) (h : l ≠ []) :
    joinNL (x :: l) = x ++ '\n' :: joinNL l := by
  cases l with
  | nil => exact absurd rfl h
  | cons y t => rfl

/-- The joiner distributes over an append of two non-empty line lists. -/
theorem joinNL_append (l1 l2 : List Str) (h1 : l1 ≠ []) (h2 : l2 ≠ []) :
    joinNL (l1 ++ l2) = joinNL l1 ++ '\n' :: joinNL l2 := by
  induction l1 with
  | nil => exact absurd rfl h1
  | cons x t ih =>
    cases t with
    | nil => rw [List.singleton_append, joinNL_cons x l2 h2]; rfl
    | cons y t2 =>
      have hne : (y :: t2) ++ l2 ≠ [] := by simp
      rw [List.cons_append, joinNL_cons x _ hne, ih (by simp),
        joinNL_cons x (y :: t2) (by simp)]
      simp

/-- The join of a middle segment is a substring of the join of the whole
line list. -/
theorem joinNL_mid_isSub (p m q : List Str) :
    isSub (joinNL m) (joinNL (p ++ m ++ q)) = true := by
  by_cases hm : m = []
  · rw [hm]; exact isSub_nil _
  · by_cases hp : p = [] <;> by_cases hq : q = []
    · subst hp; subst hq
      simpa using isSub_self (joinNL m)
    · subst hp
      rw [List.nil_append, joinNL_append m q hm hq]
      exact isSub_app_right _ (isSub_self _)
    · subst hq
      rw [List.append_nil, joinNL_append p m hp hm]
      have : joinNL p ++ '\n' :: joinNL m = (joinNL p ++ ['\n']) ++ joinNL m := by simp
      rw [this]
      exact isSub_app_left _ (isSub_self _)
    · rw [List.append_assoc, joinNL_append p (m ++ q) hp (by simp [hm]),
        joinNL_append m q hm hq]
      have : joinNL p ++ '\n' :: (joinNL m ++ '\n' :: joinNL q) =
          (joinNL p ++ ['\n']) ++ (joinNL m ++ '\n' :: joinNL q) := by simp
      rw [this]
      exact isSub_app_left _ (isSub_app_right _ (isSub_self _))

/-- The join of any contiguous slice of lines is a substring of the join of
all the lines. -/
theorem joinNL_slice_isSub (ls : List Str) (a b : ℕ) :
    isSub (joinNL ((ls.drop a).take b)) (joinNL ls) = true := by
  have h := joinNL_mid_isSub (ls.take a) ((ls.drop a).take b) ((ls.drop a).drop b)
  rw [List.append_assoc, List.take_append_drop, List.take_append_drop] at h
  exact h

/-- Taking up to the list's own length is the same as an unbounded take. -/
theorem take_min_self {α : Type} (l : List α) (k : ℕ) :
    l.take k = l.take (min l.length k) := by
  rcases le_total l.length k with h | h
  · rw [min_eq_left h, List.take_of_length_le h, List.take_length]
  · rw [min_eq_right h]

/-- The splitlines loop never returns an empty list on non-empty input (or
with a pending accumulator). -/
theorem splitlinesAux_ne_nil :
    ∀ (n : ℕ) (s acc : Str), s.length ≤ n → (s ≠ [] ∨ acc ≠ []) →
      splitlinesAux s acc ≠ [] := by
  intro n
  induction n with
  | zero =>
    intro s acc hl hne
    rcases s with - | ⟨c, t⟩
    · rw [splitlinesAux]
      rcases hne with h | h
      · exact absurd rfl h
      · rw [if_neg (by simpa using h)]
        simp
    · simp at hl
  | succ m ih =>
    intro s acc hl hne
    rcases s with - | ⟨c, rest⟩
    · rw [splitlinesAux]
      rcases hne with h | h
      · exact absurd rfl h
      · rw [if_neg (by simpa using h)]
        simp
    · rcases rest with - | ⟨c2, t⟩
      · rw [splitlinesAux]
        split_ifs <;> simp
      · rw [splitlinesAux]
        split_ifs with h1 h2
        · simp
        · simp
        · apply ih (c2 :: t) (c :: acc) (by simp at hl ⊢; omega)
          exact Or.inr (by simp)

/-- Prefix form of the splitlines loop on text whose only line boundaries
are `\n`: joining the produced lines with `\n` gives back the accumulator
plus the input, up to a dropped trailing boundary. -/
theorem splitlinesAux_join :
    ∀ (n : ℕ) (s acc : Str), s.length ≤ n →
      (∀ c ∈ s, isBrkChar c = true → c = '\n') →
      ∃ r, joinNL (splitlinesAux s acc) ++ r = acc.reverse ++ s := by
  intro n
  induction n with
  | zero =>
    intro s acc hl hlf
    rcases s with - | ⟨c, t⟩
    · rw [splitlinesAux]
      by_cases hacc : acc.isEmpty = true
      · rw [if_pos hacc]
        exact ⟨[], by simp [List.isEmpty_iff.mp hacc, joinNL]⟩
      · rw [if_neg hacc]
        exact ⟨[], by simp [joinNL]⟩
    · simp at hl
  | succ m ih =>
    intro s acc hl hlf
    rcases s with - | ⟨c, rest⟩
    · rw [splitlinesAux]
      by_cases hacc : acc.isEmpty = true
      · rw [if_pos hacc]
        exact ⟨[], by simp [List.isEmpty_iff.mp hacc, joinNL]⟩
      · rw [if_neg hacc]
        exact ⟨[], by simp [joinNL]⟩
    · rcases rest with - | ⟨c2, t⟩
      · rw [splitlinesAux]
        by_cases hbrk : isBrkChar c = true
        · rw [if_pos hbrk]
          exact ⟨[c], by simp [joinNL]⟩
        · rw [if_neg hbrk]
          exact ⟨[], by simp [joinNL]⟩
      · have hsub : ∀ c' ∈ c2 :: t, isBrkChar c' = true → c' = '\n' := by
          intro c' hc' hb
          exact hlf c' (List.mem_cons_of_mem _ hc') hb
        have hlen : (c2 :: t).length ≤ m := by
          simp at hl ⊢
          omega
        rw [splitlinesAux]
        by_cases hbrk : isBrkChar c = true
        · have hcn : c = '\n' := hlf c (by simp) hbrk
          rw [if_pos hbrk, if_neg (by rintro ⟨hr, -⟩; rw [hcn] at hr; exact absurd hr (by decide))]
          have hne : splitlinesAux (c2 :: t) [] ≠ [] :=
            splitlinesAux_ne_nil (c2 :: t).length (c2 :: t) [] (le_refl _)
              (Or.inl (by simp))
          rw [joinNL_cons _ _ hne]
          obtain ⟨r, hr⟩ := ih (c2 :: t) [] hlen hsub
          simp only [List.reverse_nil, List.nil_append] at hr
          refine ⟨r, ?_⟩
          rw [hcn]
          simp only [List.append_assoc, List.cons_append]
          rw [hr]
        · rw [if_neg hbrk]
          obtain ⟨r, hr⟩ := ih (c2 :: t) (c :: acc) hlen hsub
          refine ⟨r, ?_⟩
          rw [hr]
          simp

/-- On text whose only line boundaries are `\n`, the `\n`-join of
`splitlines` is a prefix of the text. -/
theorem joinNL_splitlines_pre (t : Str)
    (h : ∀ c ∈ t, isBrkChar c = true → c = '\n') :
    ∃ r, joinNL (splitlines t) ++ r = t := by
  obtain ⟨r, hr⟩ := splitlinesAux_join t.length t [] (le_refl _) h
  exact ⟨r, by simpa using hr⟩

/-- Canonical description of every window of `chunk_text_lines`. -/
theorem chunk_text_lines_window (text : Str) (maxL ov : ℕ) (hov : ov < maxL) :
    ∀ w ∈ chunk_text_lines text maxL ov, ∃ i0, i0 < (splitlines text).length ∧
      w = (i0 + 1, min (splitlines text).length (i0 + maxL),
        joinNL (((splitlines text).drop i0).take maxL)) := by
  intro w hw
  unfold chunk_text_lines at hw
  by_cases hn : (splitlines text).length = 0
  · rw [hn, chunkAux] at hw
    exact absurd hw (List.not_mem_nil w)
  · obtain ⟨hAll, -, -, -⟩ := chunkAux_spec (splitlines text) maxL ov hov
      (splitlines text).length 0 (by omega) (Nat.pos_of_ne_zero hn)
    rcases hAll w hw with ⟨i0, -, hlt, hw0⟩
    exact ⟨i0, hlt, hw0⟩

end NS4W

namespace NS4W

open JValue

/-- C3 (amended): every chunk built from a parsed archive carries exactly
the `\n`-join of lines [start_line, end_line] of the `splitlines`
decomposition of the entry's windowed text (decoded content, notebook-
preprocessed for `.ipynb` paths); when that text uses no line boundary
other than `\n`, the chunk text is an exact substring of it.  Line-ending
normalization (`\r\n`, `\r`, form feeds, ...) breaks exact substring-ness
against the raw decoded content. -/
theorem c3_verbatim_chunks :
    ∀ (cfg : ChunkConfig), cfg.chunkOverlap < cfg.chunkMaxLines →
    ∀ (jload : Str → Option JValue) (entries : List ZipEntry) (repo : Str),
    ∀ ch ∈ (build_chunks_from_zip cfg jload (some entries) repo).1,
      ∃ e ∈ entries, ch.file = stripTop e.filename ∧
        ch.text = joinNL (((splitlines (entrySrc jload e)).drop (ch.start_line - 1)).take
          (ch.end_line + 1 - ch.start_line)) ∧
        ((∀ c ∈ entrySrc jload e, isBrkChar c = true → c = '\n') →
          isSub ch.text (entrySrc jload e) = true) := by
  intro cfg hov jload entries repo ch hch
  rcases build_chunks_from_zip_mem cfg jload entries repo ch hch with ⟨e, he, hprops⟩
  obtain ⟨hdir, hrepo, hfile, w, hw, hwe, hs, hen, ht⟩ := hprops
  obtain ⟨i0, hi0, hww⟩ :=
    chunk_text_lines_window (entrySrc jload e) cfg.chunkMaxLines cfg.chunkOverlap hov w hw
  subst hww
  dsimp only at hs hen ht
  refine ⟨e, he, hfile, ?_, ?_⟩
  · rw [ht, hs, hen]
    have h1 : i0 + 1 - 1 = i0 := by omega
    have h2 : min (splitlines (entrySrc jload e)).length (i0 + cfg.chunkMaxLines) + 1 -
        (i0 + 1) = min ((splitlines (entrySrc jload e)).length - i0) cfg.chunkMaxLines := by
      omega
    rw [h1, h2]
    rw [take_min_self ((splitlines (entrySrc jload e)).drop i0) cfg.chunkMaxLines,
      List.length_drop]
  · intro hlf
    rw [ht]
    have hsub := joinNL_slice_isSub (splitlines (entrySrc jload e)) i0 cfg.chunkMaxLines
    obtain ⟨r, hr⟩ := joinNL_splitlines_pre (entrySrc jload e) hlf
    have hstep := isSub_app_right r hsub
    rw [hr] at hstep
    exact hstep

/-- Counterexample to C3 as stated: a CRLF file produces the chunk covering
lines [1,2] whose text normalizes the line ending and is no longer a
substring of the decoded content. -/
theorem c3_counterexample :
    ((build_chunks_from_zip inflationConfig (fun _ => none)
        (some [{ filename := str "top/a.py", isDir := false, raw := str "x\r\ny" }])
        (str "u/r")).1.map (fun ch => (ch.start_line, ch.end_line, ch.text))) =
      [(1, 2, str "x\ny")] ∧
    isSub (str "x\ny") (str "x\r\ny") = false := by
  exact ⟨by decide, by decide⟩

/-- Concrete LF-only entry instantiating the amended C3. -/
def c3entry : ZipEntry :=
  { filename := str "top/a.py", isDir := false, raw := str "x\ny" }

/-- The chunk built from `c3entry`. -/
def c3chunk : Chunk :=
  { id := str "u/r:a.py:1-2:0", repo := str "u/r", file := str "a.py",
    start_line := 1, end_line := 2, text := str "x\ny" }

/-- Closed instantiation of `c3_verbatim_chunks`. -/
theorem c3_verbatim_chunks_witness :
    ∃ e ∈ [c3entry], c3chunk.file = stripTop e.filename ∧
      c3chunk.text = joinNL (((splitlines (entrySrc (fun _ => none) e)).drop
        (c3chunk.start_line - 1)).take (c3chunk.end_line + 1 - c3chunk.start_line)) ∧
      ((∀ c ∈ entrySrc (fun _ => none) e, isBrkChar c = true → c = '\n') →
        isSub c3chunk.text (entrySrc (fun _ => none) e) = true) :=
  c3_verbatim_chunks inflationConfig (by decide) (fun _ => none) [c3entry] (str "u/r")
    c3chunk (by decide)

end NS4W

namespace NS4W

open JValue

/-! ## C4: chunk-count ceilings -/

/-- Cap behaviour of the window loop: entered below the ceiling, it either
returns early exactly at the ceiling (flag true) or stays below it. -/
theorem addWindows_cap (cfg : ChunkConfig) (repo path : Str) :
    ∀ (ws : List (ℕ × ℕ × Str)) (lid : ℕ) (acc : List Chunk),
      acc.length < cfg.maxTotalChunks →
      ((addWindows cfg repo path ws lid acc).2.2 = true →
        (addWindows cfg repo path ws lid acc).1.length = cfg.maxTotalChunks) ∧
      ((addWindows cfg repo path ws lid acc).2.2 = false →
        (addWindows cfg repo path ws lid acc).1.length < cfg.maxTotalChunks) := by
  intro ws
  induction ws with
  | nil =>
    intro lid acc hacc
    rw [addWindows]
    exact ⟨fun h => by simp at h, fun _ => hacc⟩
  | cons w ws ih =>
    intro lid acc hacc
    rw [addWindows]
    by_cases hws : (pstrip w.2.2).isEmpty = true
    · rw [if_pos hws]
      exact ih _ _ hacc
    · rw [if_neg hws]
      dsimp only
      split
      · next hcap =>
        refine ⟨fun _ => ?_, fun h => by simp at h⟩
        simp only [List.length_append, List.length_singleton] at hcap ⊢
        omega
      · next hcap =>
        apply ih
        simp only [List.length_append, List.length_singleton]
        simp only [List.length_append, List.length_singleton, not_le] at hcap
        omega

/-- The entry loop keeps the per-call chunk list at or below the ceiling. -/
theorem buildLoop_cap (cfg : ChunkConfig) (jload : Str → Option JValue) (repo : Str) :
    ∀ (entries : List ZipEntry) (tb fs lid : ℕ) (acc : List Chunk),
      acc.length < cfg.maxTotalChunks →
      (buildLoop cfg jload repo entries tb fs lid acc).length ≤ cfg.maxTotalChunks := by
  intro entries
  induction entries with
  | nil =>
    intro tb fs lid acc hacc
    rw [buildLoop]
    omega
  | cons e rest ih =>
    intro tb fs lid acc hacc
    rw [buildLoop]
    by_cases h1 : e.isDir = true
    · rw [if_pos h1]; exact ih _ _ _ _ hacc
    · rw [if_neg h1]
      by_cases h2 : cfg.maxFilesPerRepo ≤ fs
      · rw [if_pos h2]; omega
      · rw [if_neg h2]
        by_cases h3 : cfg.maxFileBytes < e.raw.length
        · rw [if_pos h3]; exact ih _ _ _ _ hacc
        · rw [if_neg h3]
          dsimp only
          by_cases h4 : (stripTop e.filename).isEmpty = true ∨
              ¬ should_keep (stripTop e.filename) = true
          · rw [if_pos h4]; exact ih _ _ _ _ hacc
          · rw [if_neg h4]
            by_cases h5 : cfg.maxZipBytes < tb + e.raw.length
            · rw [if_pos h5]; omega
            · rw [if_neg h5]
              by_cases hnb : (str ".ipynb").isSuffixOf (lowerStr (stripTop e.filename)) = true
              · rw [if_pos hnb]
                obtain ⟨hcapT, hcapF⟩ := addWindows_cap cfg repo (stripTop e.filename)
                  (chunk_text_lines (extract_text_from_ipynb jload e.raw)
                    cfg.chunkMaxLines cfg.chunkOverlap) lid acc hacc
                split
                · next h6 => exact le_of_eq (hcapT h6)
                · next h6 => exact ih _ _ _ _ (hcapF (by simpa using h6))
              · rw [if_neg hnb]
                obtain ⟨hcapT, hcapF⟩ := addWindows_cap cfg repo (stripTop e.filename)
                  (chunk_text_lines e.raw cfg.chunkMaxLines cfg.chunkOverlap) lid acc hacc
                split
                · next h6 => exact le_of_eq (hcapT h6)
                · next h6 => exact ih _ _ _ _ (hcapF (by simpa using h6))

/-- One `build_chunks_from_zip` call never returns more than the ceiling. -/
theorem build_chunks_le (cfg : ChunkConfig) (hpos : 0 < cfg.maxTotalChunks)
    (jload : Str → Option JValue) (z : Option (List ZipEntry)) (repo : Str) :
    (build_chunks_from_zip cfg jload z repo).1.length ≤ cfg.maxTotalChunks := by
  cases z with
  | none => simp [build_chunks_from_zip]
  | some entries =>
    exact buildLoop_cap cfg jload repo entries 0 0 0 [] (by simpa using hpos)

/-- Run-wide bound for the repository loop of `n_deep_index`. -/
theorem deepIndexLoop_le (cfg : ChunkConfig) (hpos : 0 < cfg.maxTotalChunks)
    (jload : Str → Option JValue) (fetch : Str → Str → Option (Option (List ZipEntry))) :
    ∀ (repos : List RepoMeta) (acc : List Chunk) (slices : List (Str × ℕ × ℕ))
      (zf pf : ℕ), acc.length < cfg.maxTotalChunks →
      (deepIndexLoop cfg jload fetch repos acc slices zf pf).1.length ≤
        2 * cfg.maxTotalChunks - 1 := by
  intro repos
  induction repos with
  | nil =>
    intro acc slices zf pf hacc
    rw [deepIndexLoop]
    dsimp only
    omega
  | cons r rest ih =>
    intro acc slices zf pf hacc
    rw [deepIndexLoop]
    by_cases h1 : r.full_name.isEmpty = true
    · rw [if_pos h1]; exact ih _ _ _ _ hacc
    · rw [if_neg h1]
      dsimp only
      cases hf : fetch r.full_name
          (if r.default_branch.isEmpty = true then str "main" else r.default_branch) with
      | none => exact ih _ _ _ _ hacc
      | some zd =>
        dsimp only
        have hb := build_chunks_le cfg hpos jload zd r.full_name
        by_cases h2 : cfg.maxTotalChunks ≤
            (acc ++ (build_chunks_from_zip cfg jload zd r.full_name).1).length
        · rw [if_pos h2]
          simp only [List.length_append] at h2 ⊢
          omega
        · rw [if_neg h2]
          apply ih
          simpa using h2

end NS4W

namespace NS4W

open JValue

/-- C4 (amended): each single `build_chunks_from_zip` call stops immediately
once its chunk list reaches `MAX_TOTAL_CHUNKS` (even mid-file, at exactly
the ceiling) and never returns more than the ceiling; the run-wide loop of
`n_deep_index` stops processing further repositories once the accumulated
total reaches the ceiling, which bounds the run total by `2*ceiling - 1` —
but the run total can exceed the ceiling itself, because the ceiling is
enforced per call plus a post-extend break, not globally. -/
theorem c4_chunk_ceiling :
    (∀ (cfg : ChunkConfig), 0 < cfg.maxTotalChunks →
      ∀ (jload : Str → Option JValue) (z : Option (List ZipEntry)) (repo : Str),
        (build_chunks_from_zip cfg jload z repo).1.length ≤ cfg.maxTotalChunks) ∧
    (∀ (cfg : ChunkConfig) (repo path : Str) (ws : List (ℕ × ℕ × Str)) (lid : ℕ)
        (acc : List Chunk), acc.length < cfg.maxTotalChunks →
      (addWindows cfg repo path ws lid acc).2.2 = true →
      (addWindows cfg repo path ws lid acc).1.length = cfg.maxTotalChunks) ∧
    (∀ (cfg : ChunkConfig), 0 < cfg.maxTotalChunks →
      ∀ (jload : Str → Option JValue) (fetch : Str → Str → Option (Option (List ZipEntry)))
        (repos : List RepoMeta),
        (deepIndexLoop cfg jload fetch repos [] [] 0 0).1.length ≤
          2 * cfg.maxTotalChunks - 1) := by
  refine ⟨?_, ?_, ?_⟩
  · intro cfg hpos jload z repo
    exact build_chunks_le cfg hpos jload z repo
  · intro cfg repo path ws lid acc hacc
    exact (addWindows_cap cfg repo path ws lid acc hacc).1
  · intro cfg hpos jload fetch repos
    exact deepIndexLoop_le cfg hpos jload fetch repos [] [] 0 0 (by simpa using hpos)

/-- Constants realizing the counterexample run: ceiling 2, one-line
windows. -/
def c4cfg : ChunkConfig :=
  { maxFilesPerRepo := 140, maxFileBytes := 900000, maxZipBytes := 6000000,
    maxTotalChunks := 2, chunkMaxLines := 1, chunkOverlap := 0 }

/-- First repository of the counterexample run. -/
def c4repo1 : RepoMeta :=
  { full_name := str "u/r1", pushed_at := str "", fork := false, size := 0,
    stargazers_count := 0, default_branch := str "main" }

/-- Second repository of the counterexample run. -/
def c4repo2 : RepoMeta :=
  { full_name := str "u/r2", pushed_at := str "", fork := false, size := 0,
    stargazers_count := 0, default_branch := str "main" }

/-- Archive fetcher of the counterexample run: one one-line file in the
first repository, one three-line file in the second. -/
def c4fetch : Str → Str → Option (Option (List ZipEntry)) :=
  fun name _ =>
    if name = str "u/r1" then
      some (some [{ filename := str "t/a.py", isDir := false, raw := str "x" }])
    else
      some (some [{ filename := str "t/b.py", isDir := false, raw := str "x\ny\nz" }])

/-- Counterexample to C4 as stated: with ceiling 2, the first repository
contributes one chunk (total 1, below the ceiling, so the loop continues),
the second contributes the per-call maximum 2, and the accumulated run-wide
chunk list reaches 3, exceeding the configured ceiling. -/
theorem c4_counterexample :
    (deepIndexLoop c4cfg (fun _ => none) c4fetch [c4repo1, c4repo2] [] [] 0 0).1.length = 3 ∧
    c4cfg.maxTotalChunks < 3 := by
  exact ⟨by decide, by decide⟩

/-- Closed instantiation of `c4_chunk_ceiling` at the source constants and
at the counterexample run. -/
theorem c4_chunk_ceiling_witness :
    (build_chunks_from_zip inflationConfig (fun _ => none)
      (some [{ filename := str "t/a.py", isDir := false, raw := str "x" }])
      (str "u/r")).1.length ≤ inflationConfig.maxTotalChunks ∧
    (deepIndexLoop c4cfg (fun _ => none) c4fetch [c4repo1, c4repo2] [] [] 0 0).1.length ≤
      2 * c4cfg.maxTotalChunks - 1 :=
  ⟨c4_chunk_ceiling.1 inflationConfig (by decide) (fun _ => none)
      (some [{ filename := str "t/a.py", isDir := false, raw := str "x" }]) (str "u/r"),
   c4_chunk_ceiling.2.2 c4cfg (by decide) (fun _ => none) c4fetch [c4repo1, c4repo2]⟩

end NS4W

namespace NS4W

open JValue

/-- Generic version of `foldl_upsert_mem` for arbitrary value types: every
pair accumulated by a fold of dict assignments comes from the initial dict
or from one of the folded elements. -/
theorem foldl_upsert_memV {α β : Type} (key : α → Str) (val : α → β) :
    ∀ (cs : List α) (m0 : List (Str × β)) p,
      p ∈ cs.foldl (fun m c => upsert m (key c) (val c)) m0 →
      p ∈ m0 ∨ ∃ c ∈ cs, p = (key c, val c) := by
  intro cs
  induction cs with
  | nil => intro m0 p hp; exact Or.inl hp
  | cons c t ih =>
    intro m0 p hp
    simp only [List.foldl_cons] at hp
    rcases ih (upsert m0 (key c) (val c)) p hp with h | ⟨d, hd, he⟩
    · rcases upsert_mem p h with h' | h'
      · exact Or.inl h'
      · exact Or.inr ⟨c, List.mem_cons_self _ _, h'⟩
    · exact Or.inr ⟨d, List.mem_cons_of_mem _ hd, he⟩

/-- When no string leaf of the CV mentions `github`, the username regex scan
never runs and the extraction returns `None`. -/
theorem extract_github_username_none {cv : JValue}
    (h : ∀ s ∈ find_all_strings cv, isSub (str "github") (lowerStr s) = false) :
    extract_github_username cv = none := by
  unfold extract_github_username
  rw [List.findSome?_eq_none_iff]
  intro s hs
  rw [h s hs]
  simp

/-- The pipeline state after the judge stage of a run whose CV yields no
GitHub username: empty repository and chunk data, the two explanatory notes,
and the conservative per-claim decisions. -/
def c6state (t1 : ℚ) (cv : JValue) (cl : List SkillClaim) : InflState :=
  { cv_json := cv
    github_user := none
    repos_all := []
    repos_deep := []
    chunks := []
    chunk_vectors := none
    repo_slices := []
    claims := cl
    decisions_by_skill := cl.foldl (fun m c => upsert m c.skill (zeroDecision c)) []
    meta := { loaded_at := some t1
              github_user_found := some false
              claims_count := some cl.length
              notes := some (str "No GitHub username found; cannot verify skill usage." ++
                str " Deep index missing; decisions set to unclear.") }
    final_output := none }

end NS4W

namespace NS4W

open JValue

/-- C6: for every CV JSON none of whose string leaves mentions `github`
(case-insensitively), `extract_github_username` returns `None`; the pipeline
still completes, and its assembled output carries no username, the two
explanatory metadata notes, and a decision for each extracted skill claim
with confidence 0 and empty evidence — the deep-index and judge stages
short-circuit instead of failing the run. -/
theorem c6_missing_identity (ox : PipelineOracles) (cv : JValue) (cl : List SkillClaim)
    (hng : ∀ s ∈ find_all_strings cv, isSub (str "github") (lowerStr s) = false)
    (hcl : llmExtractSkillClaims ox.jload ox.extractResp = some cl) :
    extract_github_username cv = none ∧
    ∃ st out, detect_skill_inflation ox cv = some st ∧
      st.final_output = some out ∧
      out.github_user = none ∧
      out.meta.notes = some (str "No GitHub username found; cannot verify skill usage. Deep index missing; decisions set to unclear.") ∧
      ∀ p ∈ out.skills, p.2.confidence = 0 ∧ p.2.evidence = [] := by
  have hgh : extract_github_username cv = none := extract_github_username_none hng
  refine ⟨hgh, ?_⟩
  have hrun : detect_skill_inflation ox cv = some (n_assemble ox.t2 (c6state ox.t1 cv cl)) := by
    unfold detect_skill_inflation n_load n_extract
    dsimp only
    rw [hgh, hcl]
    rfl
  refine ⟨n_assemble ox.t2 (c6state ox.t1 cv cl), _, hrun, rfl, rfl, ?_, ?_⟩
  · show some (str "No GitHub username found; cannot verify skill usage." ++
      str " Deep index missing; decisions set to unclear.") = _
    decide
  · intro p hp
    have hp' : p ∈ cl.foldl (fun m c => upsert m c.skill (zeroDecision c)) [] := hp
    rcases foldl_upsert_memV SkillClaim.skill zeroDecision cl [] p hp' with h | ⟨c, _, he⟩
    · simp at h
    · subst he
      exact ⟨rfl, rfl⟩

end NS4W

namespace NS4W

open JValue

/-- Stub oracles for the missing-identity run: all external effects inert. -/
def c6ox : PipelineOracles :=
  { jload := fun _ => none
    extractResp := str ""
    listRepos := fun _ => none
    fetch := fun _ _ => none
    embedO := fun _ => []
    qembed := fun _ => []
    topk := fun _ _ _ => []
    judgeO := fun _ _ => str ""
    randPool := []
    t1 := 0
    t2 := 0 }

/-- A CV with no GitHub reference in any string leaf. -/
def c6cv : JValue := jobj [(str "name", jstr (str "Alice"))]

/-- Closed instantiation of `c6_missing_identity`: the stub run on the
github-free CV extracts no username yet assembles the degraded output. -/
theorem c6_missing_identity_witness :
    extract_github_username c6cv = none ∧
    ∃ st out, detect_skill_inflation c6ox c6cv = some st ∧
      st.final_output = some out ∧
      out.github_user = none ∧
      out.meta.notes = some (str "No GitHub username found; cannot verify skill usage. Deep index missing; decisions set to unclear.") ∧
      ∀ p ∈ out.skills, p.2.confidence = 0 ∧ p.2.evidence = [] :=
  c6_missing_identity c6ox c6cv [] (by decide) (by decide)

end NS4W
